import Mathlib

/-!
Shallow embedding of the `frequency_estimation` Python package
(cascaded adaptive notch filters with an LMS frequency-tracking loop),
together with theorems settling the specification claims.

Arrays are embedded as `List ℝ`; matrices as `List (List ℝ)` (rows).
Since the Python code works with IEEE doubles, real arithmetic stands in
for floating point; noise drawn from `np.random.randn` is modelled by an
explicit stream `ℕ → ℝ` of draws passed to each call that samples noise.
-/

noncomputable section

namespace FreqEst

/-! ## Configuration (`config.py`) -/

/-- `SignalConfig` from `config.py`. -/
structure SignalConfig where
  fundamental_freq : ℝ
  sampling_freq : ℝ
  num_samples : ℕ
  add_noise : Bool
  snr_db : ℝ

/-- `FilterConfig` from `config.py`. -/
structure FilterConfig where
  num_subfilters : ℕ
  pole_radius : ℝ

/-- `LMSConfig` from `config.py`. -/
structure LMSConfig where
  step_size : ℝ
  num_theta_points : ℕ

/-- `Config` from `config.py` (the `output` section is presentation-only
and not consumed by the core, so it is omitted). -/
structure Config where
  signal : SignalConfig
  filter : FilterConfig
  lms : LMSConfig

/-! ## Second-order IIR filtering (`scipy.signal.lfilter`)

`lfilter(b, a, x)` with `a0 = 1` is implemented by scipy in direct form II
transposed with zero initial state; `lfilterAux` transcribes that loop:
`y[n] = b0*x[n] + z1`, `z1 <- b1*x[n] + z2 - a1*y[n]`, `z2 <- b2*x[n] - a2*y[n]`. -/

/-- Direct form II transposed second-order filter loop with carried state. -/
def lfilterAux (b0 b1 b2 a1 a2 : ℝ) (z1 z2 : ℝ) : List ℝ → List ℝ
  | [] => []
  | x :: xs =>
      let y := b0 * x + z1
      y :: lfilterAux b0 b1 b2 a1 a2 (b1 * x + z2 - a1 * y) (b2 * x - a2 * y) xs

/-- `scipy.signal.lfilter([b0,b1,b2], [1,a1,a2], x)`: zero initial state. -/
def lfilter (b0 b1 b2 a1 a2 : ℝ) (x : List ℝ) : List ℝ :=
  lfilterAux b0 b1 b2 a1 a2 0 0 x

/-- The direct-form biquad difference equation
`y[n] = b0*x[n] + b1*x[n-1] + b2*x[n-2] - a1*y[n-1] - a2*y[n-2]`
with zero history `x[-1]=x[-2]=y[-1]=y[-2]=0`, as a recursion on the
sample index over an input given as a function. -/
def dfOut (b0 b1 b2 a1 a2 : ℝ) (x : ℕ → ℝ) : ℕ → ℝ
  | 0 => b0 * x 0
  | 1 => b0 * x 1 + b1 * x 0 - a1 * dfOut b0 b1 b2 a1 a2 x 0
  | (n + 2) =>
      b0 * x (n + 2) + b1 * x (n + 1) + b2 * x n
        - a1 * dfOut b0 b1 b2 a1 a2 x (n + 1) - a2 * dfOut b0 b1 b2 a1 a2 x n

/-- One-sample delay of a causal sequence (index `-1` reads as `0`). -/
def delay (f : ℕ → ℝ) : ℕ → ℝ := fun k => match k with
  | 0 => 0
  | (j + 1) => f j

lemma lfilterAux_cons (b0 b1 b2 a1 a2 z1 z2 x : ℝ) (xs : List ℝ) :
    lfilterAux b0 b1 b2 a1 a2 z1 z2 (x :: xs) =
      (b0 * x + z1) :: lfilterAux b0 b1 b2 a1 a2
        (b1 * x + z2 - a1 * (b0 * x + z1)) (b2 * x - a2 * (b0 * x + z1)) xs := rfl

/-- The state carried by the transposed-form loop before consuming sample `k`:
`z1 = b1*x[k-1] + b2*x[k-2] - a1*y[k-1] - a2*y[k-2]` and
`z2 = b2*x[k-1] - a2*y[k-1]`, where `y` is the difference-equation output. -/
def dfZ1 (b0 b1 b2 a1 a2 : ℝ) (x : ℕ → ℝ) (k : ℕ) : ℝ :=
  b1 * delay x k + b2 * delay (delay x) k
    - a1 * delay (dfOut b0 b1 b2 a1 a2 x) k - a2 * delay (delay (dfOut b0 b1 b2 a1 a2 x)) k

def dfZ2 (b0 b1 b2 a1 a2 : ℝ) (x : ℕ → ℝ) (k : ℕ) : ℝ :=
  b2 * delay x k - a2 * delay (dfOut b0 b1 b2 a1 a2 x) k

lemma dfOut_eq_delay_form (b0 b1 b2 a1 a2 : ℝ) (x : ℕ → ℝ) (k : ℕ) :
    dfOut b0 b1 b2 a1 a2 x k = b0 * x k + dfZ1 b0 b1 b2 a1 a2 x k := by
  match k with
  | 0 => simp [dfOut, dfZ1, delay]
  | 1 => simp [dfOut, dfZ1, delay]; ring
  | (n + 2) =>
      show dfOut b0 b1 b2 a1 a2 x (n + 2) = _
      rw [dfOut]
      simp only [dfZ1, delay]
      ring

lemma lfilterAux_spec (b0 b1 b2 a1 a2 : ℝ) (x : ℕ → ℝ) :
    ∀ (len k : ℕ),
      lfilterAux b0 b1 b2 a1 a2 (dfZ1 b0 b1 b2 a1 a2 x k) (dfZ2 b0 b1 b2 a1 a2 x k)
          ((List.range' k len).map x) =
        (List.range' k len).map (dfOut b0 b1 b2 a1 a2 x) := by
  intro len
  induction len with
  | zero => intro k; simp [lfilterAux]
  | succ n ih =>
      intro k
      have hy : b0 * x k + dfZ1 b0 b1 b2 a1 a2 x k = dfOut b0 b1 b2 a1 a2 x k :=
        (dfOut_eq_delay_form b0 b1 b2 a1 a2 x k).symm
      have hz1 : b1 * x k + dfZ2 b0 b1 b2 a1 a2 x k
            - a1 * (b0 * x k + dfZ1 b0 b1 b2 a1 a2 x k) = dfZ1 b0 b1 b2 a1 a2 x (k + 1) := by
        rw [hy]
        simp only [dfZ1, dfZ2, delay]
        ring
      have hz2 : b2 * x k - a2 * (b0 * x k + dfZ1 b0 b1 b2 a1 a2 x k)
            = dfZ2 b0 b1 b2 a1 a2 x (k + 1) := by
        rw [hy]
        simp only [dfZ2, delay]
      rw [List.range'_succ, List.map_cons, List.map_cons, lfilterAux_cons, hz1, hz2, hy,
        ih (k + 1)]

lemma range_map_getD (l : List ℝ) :
    (List.range l.length).map (fun i => l.getD i 0) = l := by
  induction l with
  | nil => simp
  | cons a as ih =>
      have hcomp : ((fun i => (a :: as).getD i 0) ∘ Nat.succ) = fun i => as.getD i 0 := by
        funext i; simp
      simp only [List.length_cons, List.range_succ_eq_map, List.map_cons, List.map_map,
        List.getD_cons_zero, hcomp, ih]

/-- `lfilter` computes exactly the zero-state biquad difference equation. -/
lemma lfilter_eq_dfOut (b0 b1 b2 a1 a2 : ℝ) (xs : List ℝ) :
    lfilter b0 b1 b2 a1 a2 xs =
      (List.range xs.length).map (dfOut b0 b1 b2 a1 a2 (fun i => xs.getD i 0)) := by
  have h0 : dfZ1 b0 b1 b2 a1 a2 (fun i => xs.getD i 0) 0 = 0 := by
    simp [dfZ1, delay]
  have h0' : dfZ2 b0 b1 b2 a1 a2 (fun i => xs.getD i 0) 0 = 0 := by
    simp [dfZ2, delay]
  have hx : xs = (List.range' 0 xs.length).map (fun i => xs.getD i 0) := by
    rw [List.range'_eq_map_range]
    simpa using (range_map_getD xs).symm
  calc lfilter b0 b1 b2 a1 a2 xs
      = lfilterAux b0 b1 b2 a1 a2 (dfZ1 b0 b1 b2 a1 a2 (fun i => xs.getD i 0) 0)
          (dfZ2 b0 b1 b2 a1 a2 (fun i => xs.getD i 0) 0)
          ((List.range' 0 xs.length).map (fun i => xs.getD i 0)) := by
        rw [h0, h0', ← hx]; rfl
    _ = (List.range' 0 xs.length).map (dfOut b0 b1 b2 a1 a2 (fun i => xs.getD i 0)) :=
        lfilterAux_spec b0 b1 b2 a1 a2 (fun i => xs.getD i 0) xs.length 0
    _ = (List.range xs.length).map (dfOut b0 b1 b2 a1 a2 (fun i => xs.getD i 0)) := by
        rw [List.range'_eq_map_range]
        simp

lemma lfilter_length (b0 b1 b2 a1 a2 : ℝ) (xs : List ℝ) :
    (lfilter b0 b1 b2 a1 a2 xs).length = xs.length := by
  rw [lfilter_eq_dfOut]; simp

lemma lfilter_getD (b0 b1 b2 a1 a2 : ℝ) (xs : List ℝ) (n : ℕ) (hn : n < xs.length) :
    (lfilter b0 b1 b2 a1 a2 xs).getD n 0 =
      dfOut b0 b1 b2 a1 a2 (fun i => xs.getD i 0) n := by
  rw [lfilter_eq_dfOut]
  rw [List.getD_eq_getElem?_getD]
  rw [List.getElem?_map]
  simp [List.getElem?_range hn]

/-! ## Test signal (`utils/signal.py`, `signal/generator.py`) -/

/-- `generate_test_signal(f1, fs, num)`:
`x(n) = sin(w0*n) + 0.5*cos(2*w0*n) - 0.25*cos(3*w0*n)` for `n = 1..num`,
`w0 = 2*pi*f1/fs` (1-indexed to match MATLAB, as in the source). -/
def generate_test_signal (fundamental_freq sampling_freq : ℝ) (num_samples : ℕ) : List ℝ :=
  (List.range num_samples).map (fun (i : ℕ) =>
    let n : ℝ := (i : ℝ) + 1
    let omega_0 : ℝ := 2 * Real.pi * fundamental_freq / sampling_freq
    Real.sin (omega_0 * n) + 0.5 * Real.cos (2 * omega_0 * n)
      - 0.25 * Real.cos (3 * omega_0 * n))

/-- `add_awgn(signal, snr_db)`: the standard-normal draws of
`np.random.randn` are supplied as the explicit stream `noise`. -/
def add_awgn (signal : List ℝ) (snr_db : ℝ) (noise : ℕ → ℝ) : List ℝ :=
  let signal_power : ℝ := ((signal.map (fun v => v ^ 2)).sum) / signal.length
  let snr_linear : ℝ := (10 : ℝ) ^ (snr_db / 10)
  let noise_std : ℝ := Real.sqrt (signal_power / snr_linear)
  (List.range signal.length).map (fun i => signal.getD i 0 + noise_std * noise i)

/-! ## Notch filter and cascaded bank (`filters/notch_filter.py`,
`filters/filter_bank.py`) -/

/-- `NotchFilter.get_coefficients(theta)`:
`b = [1, -2cos(m*theta), 1]`, `a = [1, -2r*cos(m*theta), r^2]`. -/
def get_coefficients (harmonic_index : ℕ) (pole_radius theta : ℝ) :
    (ℝ × ℝ × ℝ) × (ℝ × ℝ × ℝ) :=
  let cos_term := Real.cos (harmonic_index * theta)
  ((1, -2 * cos_term, 1), (1, -2 * pole_radius * cos_term, pole_radius ^ 2))

/-- `NotchFilter.filter(signal, theta)` = `lfilter(b, a, signal)`
(the leading denominator coefficient `a0 = 1` is implicit in `lfilter`). -/
def notch_filter (harmonic_index : ℕ) (pole_radius theta : ℝ) (signal : List ℝ) : List ℝ :=
  lfilter 1 (-2 * Real.cos (harmonic_index * theta)) 1
    (-2 * pole_radius * Real.cos (harmonic_index * theta)) (pole_radius ^ 2) signal

/-- Row `m` of `CascadedFilterBank.process`: row 0 is the input signal,
row `m+1` pipes row `m` through the notch stage with harmonic index `m+1`. -/
def bank_row (pole_radius theta : ℝ) (signal : List ℝ) : ℕ → List ℝ
  | 0 => signal
  | (m + 1) => notch_filter (m + 1) pole_radius theta (bank_row pole_radius theta signal m)

/-- `CascadedFilterBank.process(signal, theta)`: the `(num_stages+1) x len(signal)`
output matrix as its list of rows. -/
def bank_process (num_stages : ℕ) (pole_radius theta : ℝ) (signal : List ℝ) :
    List (List ℝ) :=
  (List.range (num_stages + 1)).map (bank_row pole_radius theta signal)

/-- `CascadedFilterBank.compute_mse(signal, theta) = (mse_total, mse_first)`:
mean of squares of the final row and of row 1, divided by the column count. -/
def bank_compute_mse (num_stages : ℕ) (pole_radius : ℝ) (signal : List ℝ) (theta : ℝ) :
    ℝ × ℝ :=
  let outputs := bank_process num_stages pole_radius theta signal
  let num_samples : ℝ := (signal.length : ℝ)
  ((((outputs.getLastD []).map (fun v => v ^ 2)).sum) / num_samples,
   (((outputs.getD 1 []).map (fun v => v ^ 2)).sum) / num_samples)

/-- The signal every pipeline phase runs on: `FrequencyEstimator.generate_signal()`
and `core.filter_output` both generate `num_samples + 1` samples and add
AWGN exactly when `add_noise` is set. -/
def signalOf (cfg : Config) (noise : ℕ → ℝ) : List ℝ :=
  let base := generate_test_signal cfg.signal.fundamental_freq cfg.signal.sampling_freq
      (cfg.signal.num_samples + 1)
  if cfg.signal.add_noise then add_awgn base cfg.signal.snr_db noise else base

/-- `core.filter_output.compute_filter_output(theta, cfg)` (equally
`FrequencyEstimator`: `process(generate_signal(), theta)`): the
`(M+1) x (N+1)` filter-output matrix. -/
def compute_filter_output (theta : ℝ) (cfg : Config) (noise : ℕ → ℝ) : List (List ℝ) :=
  bank_process cfg.filter.num_subfilters cfg.filter.pole_radius theta (signalOf cfg noise)

/-! ## Initial theta search (`FrequencyEstimator.find_initial_theta`) -/

/-- `np.linspace(start, stop, num)` (endpoint included; `num = 1` gives `[start]`). -/
def linspace (start stop : ℝ) (num : ℕ) : List ℝ :=
  if num ≤ 1 then (List.range num).map (fun (_ : ℕ) => start)
  else (List.range num).map (fun (k : ℕ) =>
    start + (k : ℝ) * (stop - start) / (((num - 1 : ℕ) : ℝ)))

/-- First index of the minimum of a list (`np.argmin`; `0` on `[]`). -/
def argminIdx : List ℝ → ℕ
  | [] => 0
  | [_] => 0
  | x :: y :: rest =>
      let j := argminIdx (y :: rest)
      if (y :: rest).getD j 0 < x then j + 1 else 0

/-- The running average accumulated over the MSE grid:
`running_average += mse_values[k] / num_points`. -/
def running_average (mse_values : List ℝ) (num_points : ℕ) : ℝ :=
  mse_values.foldl (fun acc v => acc + v / num_points) 0

/-- `np.min` of a nonempty list (`0` on `[]`). -/
def listMin : List ℝ → ℝ
  | [] => 0
  | x :: xs => xs.foldl min x

/-- The capture-range membership test of `find_initial_theta` at grid index `k`. -/
def in_capture_range (mse_values mse_first_values : List ℝ) (num_points : ℕ) (k : ℕ) :
    Prop :=
  mse_first_values.getD k 0 - running_average mse_values num_points < 0.0001
    ∧ mse_values.getD k 0 - running_average mse_values num_points < 0.0001
    ∧ mse_values.getD k 0 - listMin mse_values < 0.2

instance in_capture_range.decidable (mse_values mse_first_values : List ℝ)
    (num_points k : ℕ) :
    Decidable (in_capture_range mse_values mse_first_values num_points k) := by
  unfold in_capture_range
  infer_instance

/-- The selection step of `find_initial_theta` (lines 194-216 of
`estimator.py`), given the grid and both precomputed MSE curves:
`capture_thetas = theta_range[in_capture_range]`; first element if any,
otherwise `theta_range[np.argmin(mse_values)]`. -/
def select_initial_theta (num_points : ℕ) (theta_range mse_values mse_first_values : List ℝ) :
    ℝ :=
  let capture_thetas :=
    ((List.range num_points).filter
        (fun k => decide (in_capture_range mse_values mse_first_values num_points k))).map
      (fun k => theta_range.getD k 0)
  match capture_thetas with
  | [] => theta_range.getD (argminIdx mse_values) 0
  | t :: _ => t

/-- The MSE curve over the search grid (`mse_values[k]`). -/
def mse_curve (cfg : Config) (noise : ℕ → ℝ) : List ℝ :=
  (linspace 0 (Real.pi / cfg.filter.num_subfilters) cfg.lms.num_theta_points).map
    (fun theta =>
      (bank_compute_mse cfg.filter.num_subfilters cfg.filter.pole_radius
        (signalOf cfg noise) theta).1)

/-- The first-stage MSE curve over the search grid (`mse_first_values[k]`). -/
def mse_first_curve (cfg : Config) (noise : ℕ → ℝ) : List ℝ :=
  (linspace 0 (Real.pi / cfg.filter.num_subfilters) cfg.lms.num_theta_points).map
    (fun theta =>
      (bank_compute_mse cfg.filter.num_subfilters cfg.filter.pole_radius
        (signalOf cfg noise) theta).2)

/-- `FrequencyEstimator.find_initial_theta()`: searches
`theta in [0, pi/M]` on a `num_theta_points` grid and returns
`(initial_theta, mse_values, mse_first_values, theta_range)`. -/
def find_initial_theta (cfg : Config) (noise : ℕ → ℝ) :
    ℝ × List ℝ × List ℝ × List ℝ :=
  let theta_range := linspace 0 (Real.pi / cfg.filter.num_subfilters) cfg.lms.num_theta_points
  let mse_values := mse_curve cfg noise
  let mse_first_values := mse_first_curve cfg noise
  (select_initial_theta cfg.lms.num_theta_points theta_range mse_values mse_first_values,
   mse_values, mse_first_values, theta_range)

/-! ## Gradient recursion (`core/gradient.py`,
`FrequencyEstimator._compute_gradient`) -/

/-- Lookup in a row-matrix, with `0` out of range (the Python code never
indexes out of range). -/
def toFun (m : List (List ℝ)) : ℕ → ℕ → ℝ := fun i j => (m.getD i []).getD j 0

/-- One row of the sensitivity recursion: given the harmonic index `hm`,
the previous row `prev` and the filter rows `yPrev`/`yCur`, this is the
`n = 0` / `n = 1` / `n >= 2` case split of the loop body in
`compute_gradient`. -/
def betaRow (hm : ℕ) (theta pole_radius : ℝ) (prev yPrev yCur : ℕ → ℝ) : ℕ → ℝ
  | 0 => prev 0
  | 1 =>
      prev 1 - 2 * Real.cos (hm * theta) * prev 0
        + 2 * hm * Real.sin (hm * theta) * yPrev 0
        + 2 * pole_radius * Real.cos (hm * theta) * betaRow hm theta pole_radius prev yPrev yCur 0
        - 2 * pole_radius * hm * Real.sin (hm * theta) * yCur 0
  | (n + 2) =>
      prev (n + 2) - 2 * Real.cos (hm * theta) * prev (n + 1)
        + 2 * hm * Real.sin (hm * theta) * yPrev (n + 1)
        + prev n
        + 2 * pole_radius * Real.cos (hm * theta)
            * betaRow hm theta pole_radius prev yPrev yCur (n + 1)
        - pole_radius ^ 2 * betaRow hm theta pole_radius prev yPrev yCur n
        - 2 * pole_radius * hm * Real.sin (hm * theta) * yCur (n + 1)

/-- The values the loop of `compute_gradient` actually stores: row 0 of
`beta_matrix` is never written (it stays zero), and row `m+1` is filled by
`betaRow` with `harmonic_idx = m+1` from row `m` and the filter rows
`y[m]`, `y[m+1]`. -/
def betaFn (theta pole_radius : ℝ) (y : ℕ → ℕ → ℝ) : ℕ → ℕ → ℝ
  | 0 => fun _ => 0
  | (m + 1) => betaRow (m + 1) theta pole_radius (betaFn theta pole_radius y m) (y m) (y (m + 1))

/-- Point update of the `beta_matrix` state. -/
def gradWrite (st : ℕ → ℕ → ℝ) (i j : ℕ) (v : ℝ) : ℕ → ℕ → ℝ :=
  fun a b => if a = i ∧ b = j then v else st a b

/-- The loop body of `compute_gradient`: the value written to
`beta_matrix[stage, n]` given the current matrix state. -/
def gradBody (theta pole_radius : ℝ) (y : ℕ → ℕ → ℝ) (st : ℕ → ℕ → ℝ) (stage n : ℕ) : ℝ :=
  if n = 0 then st (stage - 1) 0
  else if n = 1 then
    st (stage - 1) 1 - 2 * Real.cos (stage * theta) * st (stage - 1) 0
      + 2 * stage * Real.sin (stage * theta) * y (stage - 1) 0
      + 2 * pole_radius * Real.cos (stage * theta) * st stage 0
      - 2 * pole_radius * stage * Real.sin (stage * theta) * y stage 0
  else
    st (stage - 1) n - 2 * Real.cos (stage * theta) * st (stage - 1) (n - 1)
      + 2 * stage * Real.sin (stage * theta) * y (stage - 1) (n - 1)
      + st (stage - 1) (n - 2)
      + 2 * pole_radius * Real.cos (stage * theta) * st stage (n - 1)
      - pole_radius ^ 2 * st stage (n - 2)
      - 2 * pole_radius * stage * Real.sin (stage * theta) * y stage (n - 1)

/-- The double loop of `compute_gradient`:
`for stage in range(1, num_subfilters): for n in range(num_samples): ...`,
over a zero-initialized `beta_matrix` (modelled as a function state). -/
def gradLoop (theta pole_radius : ℝ) (y : ℕ → ℕ → ℝ) (num_subfilters num_samples : ℕ) :
    ℕ → ℕ → ℝ :=
  (List.range' 1 (num_subfilters - 1)).foldl
    (fun st stage =>
      (List.range num_samples).foldl
        (fun st2 n => gradWrite st2 stage n (gradBody theta pole_radius y st2 stage n)) st)
    (fun _ _ => 0)

/-- `compute_gradient(theta, y, cfg)`: runs the loop and returns
`beta_matrix[num_subfilters - 1, :]` as a length-`num_samples` list. -/
def compute_gradient (theta : ℝ) (y : List (List ℝ)) (cfg : Config) : List ℝ :=
  (List.range cfg.signal.num_samples).map
    (gradLoop theta cfg.filter.pole_radius (toFun y) cfg.filter.num_subfilters
      cfg.signal.num_samples (cfg.filter.num_subfilters - 1))

/-- The sensitivity recursion exactly as §4.3 of the spec words it:
stage 1's row is the zero baseline, stage `m >= 2` uses trigonometric
terms `cos(m*theta)`, `sin(m*theta)` and filter rows `y_(m-1)`, `y_m`,
and the row consumed downstream is `beta_M`.  This definition exists only
to compare the spec's wording with what the code computes. -/
def specBeta (theta pole_radius : ℝ) (y : ℕ → ℕ → ℝ) : ℕ → ℕ → ℝ
  | 0 => fun _ => 0
  | 1 => fun _ => 0
  | (m + 2) =>
      betaRow (m + 2) theta pole_radius (specBeta theta pole_radius y (m + 1)) (y (m + 1))
        (y (m + 2))

/-- The gradient row the spec's §4.3 describes: `beta_M(n)` for
`n = 0..N-1` under the `specBeta` recursion. -/
def specGradient (theta : ℝ) (y : List (List ℝ)) (cfg : Config) : List ℝ :=
  (List.range cfg.signal.num_samples).map
    (specBeta theta cfg.filter.pole_radius (toFun y) cfg.filter.num_subfilters)

/-! ## LMS adaptive loop (`core/lms.py`, `FrequencyEstimator.run_lms`) -/

/-- `run_lms_algorithm(initial_theta, cfg)`: `num_samples` iterations;
iteration `n` recomputes the filter output and gradient at the current
theta (drawing the iteration's noise stream `noise n`), applies
`theta <- theta - 2*mu*y[M, n]*beta[n]` and stores the updated theta at
position `n` of the zero-initialized history array. -/
def lmsStep (cfg : Config) (noise : ℕ → ℕ → ℝ) (st : ℝ × List ℝ) (iteration : ℕ) :
    ℝ × List ℝ :=
  let y := compute_filter_output st.1 cfg (noise iteration)
  let beta := compute_gradient st.1 y cfg
  let beta_n := beta.getD iteration 0
  let y_n := toFun y cfg.filter.num_subfilters iteration
  let theta_next := st.1 - 2 * cfg.lms.step_size * y_n * beta_n
  (theta_next, st.2.set iteration theta_next)

def run_lms (initial_theta : ℝ) (cfg : Config) (noise : ℕ → ℕ → ℝ) : ℝ × List ℝ :=
  (List.range cfg.signal.num_samples).foldl (lmsStep cfg noise)
    (initial_theta, List.replicate cfg.signal.num_samples 0)

/-- The theta value after `n` LMS updates (the mathematical trajectory the
loop follows). -/
def thetaAt (initial_theta : ℝ) (cfg : Config) (noise : ℕ → ℕ → ℝ) : ℕ → ℝ
  | 0 => initial_theta
  | (n + 1) =>
      let theta := thetaAt initial_theta cfg noise n
      let y := compute_filter_output theta cfg (noise n)
      theta - 2 * cfg.lms.step_size * toFun y cfg.filter.num_subfilters n
        * ((compute_gradient theta y cfg).getD n 0)

/-! ## The gradient loop computes `betaFn` -/

lemma gradWrite_same (st : ℕ → ℕ → ℝ) (i j : ℕ) (v : ℝ) : gradWrite st i j v i j = v := by
  simp [gradWrite]

lemma gradWrite_other (st : ℕ → ℕ → ℝ) (i j : ℕ) (v : ℝ) (a b : ℕ)
    (h : ¬(a = i ∧ b = j)) : gradWrite st i j v a b = st a b := by
  simp only [gradWrite, if_neg h]

lemma gradBody_zero (theta r : ℝ) (y st : ℕ → ℕ → ℝ) (s : ℕ) :
    gradBody theta r y st s 0 = st (s - 1) 0 := by
  simp [gradBody]

lemma gradBody_one (theta r : ℝ) (y st : ℕ → ℕ → ℝ) (s : ℕ) :
    gradBody theta r y st s 1 =
      st (s - 1) 1 - 2 * Real.cos (s * theta) * st (s - 1) 0
        + 2 * s * Real.sin (s * theta) * y (s - 1) 0
        + 2 * r * Real.cos (s * theta) * st s 0
        - 2 * r * s * Real.sin (s * theta) * y s 0 := by
  simp [gradBody]

lemma gradBody_ge_two (theta r : ℝ) (y st : ℕ → ℕ → ℝ) (s j : ℕ) :
    gradBody theta r y st s (j + 2) =
      st (s - 1) (j + 2) - 2 * Real.cos (s * theta) * st (s - 1) (j + 1)
        + 2 * s * Real.sin (s * theta) * y (s - 1) (j + 1)
        + st (s - 1) j
        + 2 * r * Real.cos (s * theta) * st s (j + 1)
        - r ^ 2 * st s j
        - 2 * r * s * Real.sin (s * theta) * y s (j + 1) := by
  simp [gradBody]

/-- If the state agrees with `betaFn` on row `m` (below `N`) and on the
prefix of row `m+1`, the loop body computes the next `betaFn` value. -/
lemma gradBody_eq (theta r : ℝ) (y : ℕ → ℕ → ℝ) (N : ℕ) (st : ℕ → ℕ → ℝ) (m k : ℕ)
    (hkN : k < N)
    (hprev : ∀ j, j < N → st m j = betaFn theta r y m j)
    (hcur : ∀ j, j < k → st (m + 1) j = betaFn theta r y (m + 1) j) :
    gradBody theta r y st (m + 1) k = betaFn theta r y (m + 1) k := by
  have hm1 : m + 1 - 1 = m := by omega
  match k with
  | 0 =>
      rw [gradBody_zero, hm1, hprev 0 (by omega)]
      rfl
  | 1 =>
      rw [gradBody_one, hm1, hprev 0 (by omega), hprev 1 hkN, hcur 0 (by omega)]
      show _ = betaRow (m + 1) theta r (betaFn theta r y m) (y m) (y (m + 1)) 1
      rw [betaRow]
      rfl
  | (j + 2) =>
      rw [gradBody_ge_two, hm1, hprev (j + 2) hkN, hprev (j + 1) (by omega),
        hprev j (by omega), hcur (j + 1) (by omega), hcur j (by omega)]
      show _ = betaRow (m + 1) theta r (betaFn theta r y m) (y m) (y (m + 1)) (j + 2)
      rw [betaRow]
      rfl

/-- Behaviour of the inner sample loop of `compute_gradient` on row `m+1`. -/
lemma innerLoop_spec (theta r : ℝ) (y : ℕ → ℕ → ℝ) (N m : ℕ) :
    ∀ (len k : ℕ) (st : ℕ → ℕ → ℝ), k + len ≤ N →
      (∀ j, j < N → st m j = betaFn theta r y m j) →
      (∀ j, j < k → st (m + 1) j = betaFn theta r y (m + 1) j) →
      ∀ i j,
        ((List.range' k len).foldl
            (fun st2 n => gradWrite st2 (m + 1) n (gradBody theta r y st2 (m + 1) n)) st) i j =
          if i = m + 1 ∧ j < k + len then betaFn theta r y (m + 1) j else st i j := by
  intro len
  induction len with
  | zero =>
      intro k st _ _ hcur i j
      simp only [List.range'_zero, List.foldl_nil]
      by_cases hij : i = m + 1 ∧ j < k + 0
      · rw [if_pos hij, hij.1]
        exact hcur j (by omega)
      · rw [if_neg hij]
  | succ len ih =>
      intro k st hle hprev hcur i j
      rw [List.range'_succ, List.foldl_cons]
      have hbody : gradBody theta r y st (m + 1) k = betaFn theta r y (m + 1) k :=
        gradBody_eq theta r y N st m k (by omega) hprev hcur
      have hprev' : ∀ j, j < N →
          gradWrite st (m + 1) k (gradBody theta r y st (m + 1) k) m j =
            betaFn theta r y m j := by
        intro j hj
        rw [gradWrite_other _ _ _ _ _ _ (by omega)]
        exact hprev j hj
      have hcur' : ∀ j, j < k + 1 →
          gradWrite st (m + 1) k (gradBody theta r y st (m + 1) k) (m + 1) j =
            betaFn theta r y (m + 1) j := by
        intro j hj
        by_cases hjk : j = k
        · subst hjk
          rw [gradWrite_same, hbody]
        · rw [gradWrite_other _ _ _ _ _ _ (by simp [hjk])]
          exact hcur j (by omega)
      rw [ih (k + 1) _ (by omega) hprev' hcur']
      by_cases hij : i = m + 1 ∧ j < k + 1 + len
      · rw [if_pos hij, if_pos ⟨hij.1, by omega⟩]
      · rw [if_neg hij, if_neg (by omega), gradWrite_other _ _ _ _ _ _ (by omega)]

/-- Behaviour of the outer stage loop of `compute_gradient`: after the
stages `s, s+1, ..., s+len-1` run, every processed row holds `betaFn` on
columns below `N`, and unprocessed rows are still zero. -/
lemma outerLoop_spec (theta r : ℝ) (y : ℕ → ℕ → ℝ) (N : ℕ) :
    ∀ (len s : ℕ) (st : ℕ → ℕ → ℝ), 1 ≤ s →
      (∀ i, i < s → ∀ j, j < N → st i j = betaFn theta r y i j) →
      (∀ i, s ≤ i → ∀ j, st i j = 0) →
      (∀ i, i < s + len → ∀ j, j < N →
        ((List.range' s len).foldl
            (fun st2 stage =>
              (List.range N).foldl
                (fun st3 n => gradWrite st3 stage n (gradBody theta r y st3 stage n)) st2) st)
          i j = betaFn theta r y i j)
      ∧ (∀ i, s + len ≤ i → ∀ j,
        ((List.range' s len).foldl
            (fun st2 stage =>
              (List.range N).foldl
                (fun st3 n => gradWrite st3 stage n (gradBody theta r y st3 stage n)) st2) st)
          i j = 0) := by
  intro len
  induction len with
  | zero =>
      intro s st _ hbelow hzero
      constructor
      · intro i hi j hj
        simpa using hbelow i (by omega) j hj
      · intro i hi j
        simpa using hzero i (by omega) j
  | succ len ih =>
      intro s st hs hbelow hzero
      obtain ⟨m, rfl⟩ : ∃ m, s = m + 1 := ⟨s - 1, by omega⟩
      rw [List.range'_succ, List.foldl_cons]
      have hinner' : ∀ i j,
          ((List.range N).foldl
              (fun st3 n => gradWrite st3 (m + 1) n (gradBody theta r y st3 (m + 1) n)) st) i j =
            if i = m + 1 ∧ j < N then betaFn theta r y (m + 1) j else st i j := by
        intro i j
        have := innerLoop_spec theta r y N m N 0 st (by omega)
          (fun j hj => hbelow m (by omega) j hj) (fun j hj => absurd hj (by omega)) i j
        rw [List.range_eq_range']
        simpa using this
      have hmain := ih (m + 2)
        ((List.range N).foldl
          (fun st3 n => gradWrite st3 (m + 1) n (gradBody theta r y st3 (m + 1) n)) st)
        (by omega)
        (fun i hi j hj => by
          rw [hinner' i j]
          by_cases him : i = m + 1
          · rw [if_pos ⟨him, hj⟩, him]
          · rw [if_neg (by simp [him])]
            exact hbelow i (by omega) j hj)
        (fun i hi j => by
          rw [hinner' i j, if_neg (by omega)]
          exact hzero i (by omega) j)
      constructor
      · intro i hi j hj
        exact hmain.1 i (by omega) j hj
      · intro i hi j
        exact hmain.2 i (by omega) j

/-- `compute_gradient` returns row `num_subfilters - 1` of the `betaFn`
recursion, sampled at `n = 0..num_samples-1`. -/
lemma compute_gradient_eq (theta : ℝ) (y : List (List ℝ)) (cfg : Config) :
    compute_gradient theta y cfg =
      (List.range cfg.signal.num_samples).map
        (betaFn theta cfg.filter.pole_radius (toFun y) (cfg.filter.num_subfilters - 1)) := by
  unfold compute_gradient
  apply List.map_congr_left
  intro n hn
  rw [List.mem_range] at hn
  rcases Nat.eq_zero_or_pos cfg.filter.num_subfilters with hM | hM
  · unfold gradLoop
    rw [hM]
    simp only [Nat.zero_sub, List.range'_zero, List.foldl_nil]
    rfl
  · unfold gradLoop
    have h := (outerLoop_spec theta cfg.filter.pole_radius (toFun y) cfg.signal.num_samples
      (cfg.filter.num_subfilters - 1) 1 (fun _ _ => 0) (by omega)
      (fun i hi j _ => by
        interval_cases i
        rfl)
      (fun _ _ _ => rfl)).1
    exact h (cfg.filter.num_subfilters - 1) (by omega) n hn

/-! ## The LMS loop follows the `thetaAt` trajectory -/

lemma set_append_full {α : Type} (A B : List α) (v : α) :
    (A ++ B).set A.length v = A ++ B.set 0 v := by
  induction A with
  | nil => simp
  | cons a as ih => simp [ih]

lemma set_append_full' {α : Type} (A B : List α) (v : α) (n : ℕ) (h : n = A.length) :
    (A ++ B).set n v = A ++ B.set 0 v := by
  subst h
  exact set_append_full A B v

/-- One step of the `run_lms` fold advances the trajectory by one update
and fills history slot `k`. -/
lemma run_lms_step (initial_theta : ℝ) (cfg : Config) (noise : ℕ → ℕ → ℝ) (k : ℕ)
    (hist : List ℝ) :
    lmsStep cfg noise (thetaAt initial_theta cfg noise k, hist) k =
    (thetaAt initial_theta cfg noise (k + 1),
      hist.set k (thetaAt initial_theta cfg noise (k + 1))) := by
  show (_, _) = _
  rw [thetaAt]

lemma run_lms_aux (initial_theta : ℝ) (cfg : Config) (noise : ℕ → ℕ → ℝ) :
    ∀ (len k : ℕ), k + len = cfg.signal.num_samples →
      ((List.range' k len).foldl (lmsStep cfg noise)
        (thetaAt initial_theta cfg noise k,
          (List.range k).map (fun n => thetaAt initial_theta cfg noise (n + 1)) ++
            List.replicate (cfg.signal.num_samples - k) 0)) =
      (thetaAt initial_theta cfg noise cfg.signal.num_samples,
        (List.range cfg.signal.num_samples).map
          (fun n => thetaAt initial_theta cfg noise (n + 1))) := by
  intro len
  induction len with
  | zero =>
      intro k hk
      subst hk
      simp
  | succ len ih =>
      intro k hk
      rw [List.range'_succ, List.foldl_cons, run_lms_step]
      have hset :
          ((List.range k).map (fun n => thetaAt initial_theta cfg noise (n + 1)) ++
              List.replicate (cfg.signal.num_samples - k) 0).set k
            (thetaAt initial_theta cfg noise (k + 1)) =
          (List.range (k + 1)).map (fun n => thetaAt initial_theta cfg noise (n + 1)) ++
            List.replicate (cfg.signal.num_samples - (k + 1)) 0 := by
        have hrep : cfg.signal.num_samples - k = (cfg.signal.num_samples - (k + 1)) + 1 := by
          omega
        rw [set_append_full' _ _ _ _ (by simp), hrep, List.replicate_succ, List.set_cons_zero,
          List.range_succ, List.map_append]
        simp
      rw [hset]
      exact ih (k + 1) (by omega)

/-- `run_lms` returns the `N`-step trajectory value and the history
`[thetaAt 1, ..., thetaAt N]`. -/
lemma run_lms_eq (initial_theta : ℝ) (cfg : Config) (noise : ℕ → ℕ → ℝ) :
    run_lms initial_theta cfg noise =
      (thetaAt initial_theta cfg noise cfg.signal.num_samples,
        (List.range cfg.signal.num_samples).map
          (fun n => thetaAt initial_theta cfg noise (n + 1))) := by
  unfold run_lms
  have h := run_lms_aux initial_theta cfg noise cfg.signal.num_samples 0 (by omega)
  simp only [List.range_zero, List.map_nil, List.nil_append, Nat.sub_zero] at h
  have h0 : thetaAt initial_theta cfg noise 0 = initial_theta := rfl
  rw [h0] at h
  conv_lhs => rw [List.range_eq_range']
  exact h

/-! ## Frequency response (`core/frequency_response.py`) -/

/-- `scipy.signal.freqz([b0,b1,b2], [a0,a1,a2], worN=omega)` at one point:
the rational transfer function evaluated at `z = e^(i*omega)`. -/
def freqzH (b0 b1 b2 a0 a1 a2 : ℝ) (omega : ℝ) : ℂ :=
  ((b0 : ℂ) + (b1 : ℂ) * Complex.exp (-(Complex.I * (omega : ℂ)))
      + (b2 : ℂ) * Complex.exp (-(2 * Complex.I * (omega : ℂ)))) /
  ((a0 : ℂ) + (a1 : ℂ) * Complex.exp (-(Complex.I * (omega : ℂ)))
      + (a2 : ℂ) * Complex.exp (-(2 * Complex.I * (omega : ℂ))))

/-- The response of the notch stage with harmonic index `hm` over a grid. -/
def stage_response (hm : ℕ) (pole_radius theta : ℝ) (omega : List ℝ) : List ℂ :=
  omega.map (freqzH 1 (-2 * Real.cos (hm * theta)) 1
    1 (-2 * pole_radius * Real.cos (hm * theta)) (pole_radius ^ 2))

/-- `H = H * (1 / np.abs(H[ref]))`: scale so the reference entry has unit
magnitude. -/
def normalize_at (ref : ℕ) (H : List ℂ) : List ℂ :=
  H.map (fun z => z * (((Complex.abs (H.getD ref 0))⁻¹ : ℝ) : ℂ))

/-- `core.frequency_response.compute_frequency_response(theta, cfg)`:
loops `for stage in range(total_stages)` with `total_stages = M + 1` and
`harmonic_idx = stage + 1`, normalizing each stage response at index
`num_points` of the `3*num_points`-point grid over `[-pi, pi]`,
accumulating the product, and renormalizing the product at the same
index.  Returns `(H_total, H_stages, freq_axis)`. -/
def compute_frequency_response (theta : ℝ) (cfg : Config) :
    List ℂ × List (List ℂ) × List ℝ :=
  let num_points := cfg.lms.num_theta_points
  let num_freq_points := num_points * 3
  let omega := linspace (-Real.pi) Real.pi num_freq_points
  let freq_axis := omega.map (fun w => w * cfg.signal.sampling_freq / (2 * Real.pi))
  let H_stages := (List.range (cfg.filter.num_subfilters + 1)).map
    (fun stage =>
      normalize_at num_points
        (stage_response (stage + 1) cfg.filter.pole_radius theta omega))
  let H_total := H_stages.foldl (fun acc H => List.zipWith (fun x y => x * y) acc H)
    (List.replicate num_freq_points 1)
  (normalize_at num_points H_total, H_stages, freq_axis)

/-- Modelled from the spec (§4.2): the total response as the claim states
it — the product of the per-stage responses of exactly the `M` stages with
harmonic indices `1..M`, each normalized to unit magnitude at the fixed
reference index before multiplication, and the product re-normalized at
that same index.  Exists only for comparison with
`compute_frequency_response`. -/
def claim_frequency_response_total (theta : ℝ) (cfg : Config) : List ℂ :=
  let num_points := cfg.lms.num_theta_points
  let num_freq_points := num_points * 3
  let omega := linspace (-Real.pi) Real.pi num_freq_points
  let H_stages := (List.range cfg.filter.num_subfilters).map
    (fun stage =>
      normalize_at num_points
        (stage_response (stage + 1) cfg.filter.pole_radius theta omega))
  let H_total := H_stages.foldl (fun acc H => List.zipWith (fun x y => x * y) acc H)
    (List.replicate num_freq_points 1)
  normalize_at num_points H_total

/-! ## Generic access lemmas -/

lemma getD_map_range {α : Type} (f : ℕ → α) (d : α) (k n : ℕ) (hn : n < k) :
    ((List.range k).map f).getD n d = f n := by
  simp [List.getD_eq_getElem?_getD, List.getElem?_range hn]

lemma generate_length (f1 fs : ℝ) (k : ℕ) : (generate_test_signal f1 fs k).length = k := by
  rw [generate_test_signal, List.length_map, List.length_range]

lemma bank_process_getD (M : ℕ) (r theta : ℝ) (sig : List ℝ) (i : ℕ) (hi : i < M + 1) :
    (bank_process M r theta sig).getD i [] = bank_row r theta sig i :=
  getD_map_range _ _ _ _ hi

lemma bank_row_length (r theta : ℝ) (sig : List ℝ) (m : ℕ) :
    (bank_row r theta sig m).length = sig.length := by
  induction m with
  | zero => rfl
  | succ m ih => rw [bank_row, notch_filter, lfilter_length, ih]

lemma notch_filter_first (m : ℕ) (r theta : ℝ) (x : List ℝ) (hx : 0 < x.length) :
    (notch_filter m r theta x).getD 0 0 = x.getD 0 0 := by
  rw [notch_filter, lfilter_getD _ _ _ _ _ _ 0 hx]
  show 1 * x.getD 0 0 = x.getD 0 0
  ring

/-! ## Claims C4, C1, C2, C10 -/

/-- **C4.** A notch stage's coefficients are exactly
`b = (1, -2cos(m*theta), 1)`, `a = (1, -2r*cos(m*theta), r^2)`, and the
stage applies the direct-form biquad recursion
`y[n] = b0*x[n] + b1*x[n-1] + b2*x[n-2] - a1*y[n-1] - a2*y[n-2]` with
zero initial history. -/
theorem notch_stage_biquad (m : ℕ) (r theta : ℝ) (x : List ℝ) (n : ℕ) (hn : n < x.length) :
    get_coefficients m r theta =
      ((1, -2 * Real.cos (m * theta), 1), (1, -2 * r * Real.cos (m * theta), r ^ 2))
    ∧ (notch_filter m r theta x).getD n 0 =
        1 * x.getD n 0
          + (-2 * Real.cos (m * theta)) * (if n = 0 then 0 else x.getD (n - 1) 0)
          + 1 * (if n ≤ 1 then 0 else x.getD (n - 2) 0)
          - (-2 * r * Real.cos (m * theta)) *
              (if n = 0 then 0 else (notch_filter m r theta x).getD (n - 1) 0)
          - r ^ 2 * (if n ≤ 1 then 0 else (notch_filter m r theta x).getD (n - 2) 0) := by
  refine ⟨rfl, ?_⟩
  have hget : ∀ j, j < x.length → (notch_filter m r theta x).getD j 0 =
      dfOut 1 (-2 * Real.cos (m * theta)) 1 (-2 * r * Real.cos (m * theta)) (r ^ 2)
        (fun i => x.getD i 0) j := by
    intro j hj
    exact lfilter_getD _ _ _ _ _ x j hj
  rw [hget n hn]
  match n, hn with
  | 0, hn =>
      rw [dfOut]
      norm_num
  | 1, hn =>
      rw [dfOut, ← hget 0 (by omega)]
      norm_num
  | (j + 2), hn =>
      rw [dfOut, ← hget (j + 1) (by omega), ← hget j (by omega)]
      have h2 : ¬(j + 2 = 0) := by omega
      have h3 : ¬(j + 2 ≤ 1) := by omega
      rw [if_neg h2, if_neg h3, if_neg h2, if_neg h3]
      have e1 : j + 2 - 1 = j + 1 := by omega
      have e2 : j + 2 - 2 = j := by omega
      rw [e1, e2]

/-- Witness for C4 at `m = 1`, `r = 1/2`, `theta = 0`, `x = [1, 2, 3]`,
`n = 2`. -/
theorem notch_stage_biquad_witness :
    (2 < ([1, 2, 3] : List ℝ).length)
    ∧ (get_coefficients 1 (1/2) 0 =
        ((1, -2 * Real.cos ((1 : ℕ) * 0), 1),
         (1, -2 * (1/2) * Real.cos ((1 : ℕ) * 0), (1/2 : ℝ) ^ 2))
    ∧ (notch_filter 1 (1/2) 0 ([1, 2, 3] : List ℝ)).getD 2 0 =
        1 * ([1, 2, 3] : List ℝ).getD 2 0
          + (-2 * Real.cos ((1 : ℕ) * 0)) * (if (2 : ℕ) = 0 then 0 else ([1, 2, 3] : List ℝ).getD (2 - 1) 0)
          + 1 * (if (2 : ℕ) ≤ 1 then 0 else ([1, 2, 3] : List ℝ).getD (2 - 2) 0)
          - (-2 * (1/2) * Real.cos ((1 : ℕ) * 0)) *
              (if (2 : ℕ) = 0 then 0 else (notch_filter 1 (1/2) 0 ([1, 2, 3] : List ℝ)).getD (2 - 1) 0)
          - (1/2 : ℝ) ^ 2 * (if (2 : ℕ) ≤ 1 then 0 else (notch_filter 1 (1/2) 0 ([1, 2, 3] : List ℝ)).getD (2 - 2) 0)) :=
  ⟨by norm_num, notch_stage_biquad 1 (1/2) 0 [1, 2, 3] 2 (by norm_num)⟩

/-- **C1 (amended).** `compute_gradient` fills the sensitivity matrix by
the recursion in which row 0 (the input row's sensitivity) is identically
zero and row `m`, for `m = 1..M-1`, uses the trigonometric terms
`cos(m*theta)`, `sin(m*theta)`, filter rows `y_(m-1)` and `y_m`, and the
boundary condition `beta_m(0) = beta_(m-1)(0)`; the row it returns is
row `M-1` — the sensitivity of cascade stage `M-1`, not the spec's
`beta_M`. -/
theorem gradient_recursion_contract (theta : ℝ) (y : List (List ℝ)) (cfg : Config) :
    compute_gradient theta y cfg =
      (List.range cfg.signal.num_samples).map
        (betaFn theta cfg.filter.pole_radius (toFun y) (cfg.filter.num_subfilters - 1)) :=
  compute_gradient_eq theta y cfg

/-- **C2.** `run_lms` performs exactly `num_samples` iterations with no
convergence check: the result is the `N`-step trajectory of the update
`theta <- theta - 2*mu*y[M, n]*beta[n]` (that is exactly `thetaAt`),
the history has length `N`, entry `n` stores the theta value right after
update `n`, and (for `N >= 1`) the last entry is the returned theta. -/
theorem lms_loop_contract (initial_theta : ℝ) (cfg : Config) (noise : ℕ → ℕ → ℝ)
    (hN : 0 < cfg.signal.num_samples) :
    run_lms initial_theta cfg noise =
      (thetaAt initial_theta cfg noise cfg.signal.num_samples,
        (List.range cfg.signal.num_samples).map
          (fun n => thetaAt initial_theta cfg noise (n + 1)))
    ∧ (run_lms initial_theta cfg noise).2.length = cfg.signal.num_samples
    ∧ (∀ n, n < cfg.signal.num_samples →
        (run_lms initial_theta cfg noise).2.getD n 0 =
          thetaAt initial_theta cfg noise (n + 1))
    ∧ (run_lms initial_theta cfg noise).2.getLast? = some (run_lms initial_theta cfg noise).1 := by
  have h := run_lms_eq initial_theta cfg noise
  refine ⟨h, ?_, ?_, ?_⟩
  · rw [h]; simp
  · intro n hn
    rw [h]
    exact getD_map_range _ _ _ _ hn
  · rw [h]
    obtain ⟨N', hN'⟩ : ∃ N', cfg.signal.num_samples = N' + 1 :=
      ⟨cfg.signal.num_samples - 1, by omega⟩
    show ((List.range cfg.signal.num_samples).map
        (fun n => thetaAt initial_theta cfg noise (n + 1))).getLast? =
      some (thetaAt initial_theta cfg noise cfg.signal.num_samples)
    rw [hN', List.range_succ, List.map_append, List.map_cons, List.map_nil,
      List.getLast?_concat]

/-! ## Concrete configurations used by witnesses and counterexamples -/

/-- `f1 = 1`, `fs = 4` (so `omega_0 = pi/2`), `N = 2`, no noise, `M = 2`,
`r = 1/2`. -/
def cfgA : Config :=
  { signal := { fundamental_freq := 1, sampling_freq := 4, num_samples := 2,
                add_noise := false, snr_db := 18 },
    filter := { num_subfilters := 2, pole_radius := 1/2 },
    lms := { step_size := 1/10000, num_theta_points := 1 } }

/-- Like `cfgA` but `N = 0`, `M = 1`, noise enabled at `snr_db = 0`. -/
def cfgB : Config :=
  { signal := { fundamental_freq := 1, sampling_freq := 4, num_samples := 0,
                add_noise := true, snr_db := 0 },
    filter := { num_subfilters := 1, pole_radius := 1/2 },
    lms := { step_size := 1/10000, num_theta_points := 1 } }

/-- `N = 1`, `M = 1`, one theta grid point, no noise. -/
def cfgC : Config :=
  { signal := { fundamental_freq := 1, sampling_freq := 4, num_samples := 1,
                add_noise := false, snr_db := 18 },
    filter := { num_subfilters := 1, pole_radius := 1/2 },
    lms := { step_size := 1/10000, num_theta_points := 1 } }

lemma getD_replicate_zero (N n : ℕ) : (List.replicate N (0 : ℝ)).getD n 0 = 0 := by
  rw [List.getD_eq_getElem?_getD, List.getElem?_replicate]
  split <;> rfl

/-- **C10.** If `num_subfilters = 1`, `compute_gradient` returns the
all-zero vector for every theta and every filter-output matrix, and
`run_lms` leaves theta unchanged: the final theta equals the initial
theta and every history entry equals the initial theta. -/
theorem single_stage_gradient_and_lms (theta0 : ℝ) (cfg : Config) (noise : ℕ → ℕ → ℝ)
    (hM : cfg.filter.num_subfilters = 1) :
    (∀ (theta : ℝ) (y : List (List ℝ)),
        compute_gradient theta y cfg = List.replicate cfg.signal.num_samples 0)
    ∧ run_lms theta0 cfg noise = (theta0, List.replicate cfg.signal.num_samples theta0) := by
  have hgrad : ∀ (theta : ℝ) (y : List (List ℝ)),
      compute_gradient theta y cfg = List.replicate cfg.signal.num_samples 0 := by
    intro theta y
    rw [compute_gradient_eq, hM]
    have : ∀ n, betaFn theta cfg.filter.pole_radius (toFun y) (1 - 1) n = 0 := by
      intro n; rfl
    calc (List.range cfg.signal.num_samples).map
          (betaFn theta cfg.filter.pole_radius (toFun y) (1 - 1))
        = (List.range cfg.signal.num_samples).map (fun _ => (0 : ℝ)) := by
          exact List.map_congr_left (fun n _ => this n)
      _ = List.replicate cfg.signal.num_samples 0 := by
          rw [List.map_const']; simp
  refine ⟨hgrad, ?_⟩
  have htheta : ∀ n, thetaAt theta0 cfg noise n = theta0 := by
    intro n
    induction n with
    | zero => rfl
    | succ n ih =>
        rw [thetaAt]
        simp only [ih, hgrad, getD_replicate_zero, mul_zero, sub_zero]
  rw [run_lms_eq]
  rw [htheta cfg.signal.num_samples]
  congr 1
  calc (List.range cfg.signal.num_samples).map
        (fun n => thetaAt theta0 cfg noise (n + 1))
      = (List.range cfg.signal.num_samples).map (fun _ => theta0) :=
        List.map_congr_left (fun n _ => htheta (n + 1))
    _ = List.replicate cfg.signal.num_samples theta0 := by
        rw [List.map_const']; simp

/-- Witness for C10 at `cfgC` (`M = 1`), `theta0 = 0`, zero noise draws. -/
theorem single_stage_gradient_and_lms_witness :
    cfgC.filter.num_subfilters = 1
    ∧ ((∀ (theta : ℝ) (y : List (List ℝ)),
          compute_gradient theta y cfgC = List.replicate cfgC.signal.num_samples 0)
      ∧ run_lms 0 cfgC (fun _ _ => 0) =
          (0, List.replicate cfgC.signal.num_samples 0)) :=
  ⟨rfl, single_stage_gradient_and_lms 0 cfgC (fun _ _ => 0) rfl⟩

/-- Witness for C2 at `cfgA` (`N = 2`), `theta0 = 0`, zero noise draws. -/
theorem lms_loop_contract_witness :
    0 < cfgA.signal.num_samples
    ∧ (run_lms 0 cfgA (fun _ _ => 0) =
        (thetaAt 0 cfgA (fun _ _ => 0) cfgA.signal.num_samples,
          (List.range cfgA.signal.num_samples).map
            (fun n => thetaAt 0 cfgA (fun _ _ => 0) (n + 1)))
      ∧ (run_lms 0 cfgA (fun _ _ => 0)).2.length = cfgA.signal.num_samples
      ∧ (∀ n, n < cfgA.signal.num_samples →
          (run_lms 0 cfgA (fun _ _ => 0)).2.getD n 0 =
            thetaAt 0 cfgA (fun _ _ => 0) (n + 1))
      ∧ (run_lms 0 cfgA (fun _ _ => 0)).2.getLast? =
          some (run_lms 0 cfgA (fun _ _ => 0)).1) :=
  ⟨by decide, lms_loop_contract 0 cfgA (fun _ _ => 0) (by decide)⟩

/-! ## Concrete evaluations at `omega_0 = pi/2` -/

lemma cos_pi_add_pi_div_two : Real.cos (Real.pi + Real.pi / 2) = 0 := by
  rw [Real.cos_add, Real.cos_pi, Real.sin_pi, Real.cos_pi_div_two, Real.sin_pi_div_two]
  ring

/-- The first-sample value of the test signal for `f1 = 1`, `fs = 4`:
`sin(pi/2) + 0.5*cos(pi) - 0.25*cos(3*pi/2) = 1/2`. -/
lemma sig14_fun0 :
    Real.sin (2 * Real.pi * 1 / 4 * (((0 : ℕ) : ℝ) + 1))
      + 0.5 * Real.cos (2 * (2 * Real.pi * 1 / 4) * (((0 : ℕ) : ℝ) + 1))
      - 0.25 * Real.cos (3 * (2 * Real.pi * 1 / 4) * (((0 : ℕ) : ℝ) + 1)) = 1/2 := by
  have e1 : 2 * Real.pi * 1 / 4 * (((0 : ℕ) : ℝ) + 1) = Real.pi / 2 := by push_cast; ring
  have e2 : 2 * (2 * Real.pi * 1 / 4) * (((0 : ℕ) : ℝ) + 1) = Real.pi := by push_cast; ring
  have e3 : 3 * (2 * Real.pi * 1 / 4) * (((0 : ℕ) : ℝ) + 1) = Real.pi + Real.pi / 2 := by
    push_cast; ring
  rw [e1, e2, e3, Real.sin_pi_div_two, Real.cos_pi, cos_pi_add_pi_div_two]
  norm_num

lemma sig14_first (k : ℕ) (hk : 0 < k) : (generate_test_signal 1 4 k).getD 0 0 = 1/2 := by
  rw [generate_test_signal, getD_map_range _ _ _ _ hk]
  exact sig14_fun0

/-- The one-sample test signal for `f1 = 1`, `fs = 4` is `[1/2]`. -/
lemma sig14_list : generate_test_signal 1 4 1 = [1/2] := by
  rw [generate_test_signal, show List.range 1 = [0] from rfl, List.map_cons, List.map_nil]
  congr 1
  exact sig14_fun0

/-- Row 0, sample 0 of `cfgA`'s filter-output matrix (the input signal). -/
lemma yA_row0 (theta : ℝ) (ns : ℕ → ℝ) :
    toFun (compute_filter_output theta cfgA ns) 0 0 = 1/2 := by
  show ((compute_filter_output theta cfgA ns).getD 0 []).getD 0 0 = 1/2
  have h : (compute_filter_output theta cfgA ns).getD 0 [] =
      bank_row cfgA.filter.pole_radius theta (signalOf cfgA ns) 0 :=
    bank_process_getD _ _ _ _ 0 (by norm_num [cfgA])
  rw [h]
  show (signalOf cfgA ns).getD 0 0 = 1/2
  have hs : signalOf cfgA ns = generate_test_signal 1 4 3 := rfl
  rw [hs]
  exact sig14_first 3 (by norm_num)

/-- Row 1, sample 0 of `cfgA`'s filter-output matrix: the first output of
any notch stage equals the first input sample. -/
lemma yA_row1 (theta : ℝ) (ns : ℕ → ℝ) :
    toFun (compute_filter_output theta cfgA ns) 1 0 = 1/2 := by
  show ((compute_filter_output theta cfgA ns).getD 1 []).getD 0 0 = 1/2
  have h : (compute_filter_output theta cfgA ns).getD 1 [] =
      bank_row cfgA.filter.pole_radius theta (signalOf cfgA ns) 1 :=
    bank_process_getD _ _ _ _ 1 (by norm_num [cfgA])
  rw [h]
  show (notch_filter 1 cfgA.filter.pole_radius theta (signalOf cfgA ns)).getD 0 0 = 1/2
  have hs : signalOf cfgA ns = generate_test_signal 1 4 3 := rfl
  rw [hs, notch_filter_first _ _ _ _ (by rw [generate_length]; norm_num)]
  exact sig14_first 3 (by norm_num)

/-- What the code returns at `cfgA`, `theta = pi/2`, sample 1:
row `M-1 = 1` of the code's recursion gives
`2*sin(pi/2)*y0(0) - 2*r*sin(pi/2)*y1(0) = 1/2`. -/
lemma gradA_index1 :
    (compute_gradient (Real.pi/2)
        (compute_filter_output (Real.pi/2) cfgA (fun _ => 0)) cfgA).getD 1 0 = 1/2 := by
  rw [compute_gradient_eq]
  rw [getD_map_range _ _ _ _ (by norm_num [cfgA])]
  show betaFn (Real.pi/2) cfgA.filter.pole_radius
      (toFun (compute_filter_output (Real.pi/2) cfgA (fun _ => 0))) 1 1 = 1/2
  simp only [betaFn, betaRow]
  rw [yA_row0, yA_row1]
  show (0 : ℝ) - 2 * Real.cos (((0 : ℕ) + 1 : ℕ) * (Real.pi/2)) * 0
      + 2 * (((0 : ℕ) + 1 : ℕ) : ℝ) * Real.sin (((0 : ℕ) + 1 : ℕ) * (Real.pi/2)) * (1/2)
      + 2 * cfgA.filter.pole_radius * Real.cos (((0 : ℕ) + 1 : ℕ) * (Real.pi/2)) * 0
      - 2 * cfgA.filter.pole_radius * (((0 : ℕ) + 1 : ℕ) : ℝ)
          * Real.sin (((0 : ℕ) + 1 : ℕ) * (Real.pi/2)) * (1/2) = 1/2
  have e : ((((0 : ℕ) + 1 : ℕ) : ℝ)) * (Real.pi/2) = Real.pi/2 := by push_cast; ring
  rw [e, Real.sin_pi_div_two]
  show (0 : ℝ) - 2 * Real.cos (Real.pi/2) * 0 + 2 * (((0 : ℕ) + 1 : ℕ) : ℝ) * 1 * (1/2)
      + 2 * (1/2) * Real.cos (Real.pi/2) * 0 - 2 * (1/2) * (((0 : ℕ) + 1 : ℕ) : ℝ) * 1 * (1/2)
      = 1/2
  push_cast
  ring

/-- What the spec's recursion yields at the same input, sample 1:
stage 1 is the zero baseline and the `m = 2` terms carry `sin(pi) = 0`,
so `specBeta` row `M = 2` is `0` there. -/
lemma specA_index1 :
    (specGradient (Real.pi/2)
        (compute_filter_output (Real.pi/2) cfgA (fun _ => 0)) cfgA).getD 1 0 = 0 := by
  rw [specGradient]
  rw [getD_map_range _ _ _ _ (by norm_num [cfgA])]
  show specBeta (Real.pi/2) cfgA.filter.pole_radius
      (toFun (compute_filter_output (Real.pi/2) cfgA (fun _ => 0))) 2 1 = 0
  simp only [specBeta, betaRow]
  have e : ((((0 : ℕ) + 2 : ℕ) : ℝ)) * (Real.pi/2) = Real.pi := by push_cast; ring
  rw [e, Real.sin_pi]
  ring

/-- **C1 (counterexample).** At `cfgA` with `theta = pi/2` and the filter
output computed for that theta, the gradient the code returns differs
from the row `beta_M` of the spec's stages-`2..M` recursion (sample 1 is
`1/2` versus `0`): `compute_gradient` is not the spec's recursion with
`cos(m*theta)`/`y_(m-1)`/`y_m` indices over stages `2..M` returning
`beta_M`. -/
theorem gradient_spec_mismatch :
    compute_gradient (Real.pi/2)
        (compute_filter_output (Real.pi/2) cfgA (fun _ => 0)) cfgA ≠
      specGradient (Real.pi/2)
        (compute_filter_output (Real.pi/2) cfgA (fun _ => 0)) cfgA := by
  intro h
  have h1 := congrArg (fun l => l.getD 1 0) h
  simp only at h1
  rw [gradA_index1, specA_index1] at h1
  norm_num at h1

/-! ## Claims C5 and C7 -/

lemma add_awgn_length (s : List ℝ) (snr : ℝ) (ns : ℕ → ℝ) :
    (add_awgn s snr ns).length = s.length := by
  rw [add_awgn]
  simp

lemma signalOf_length (cfg : Config) (ns : ℕ → ℝ) :
    (signalOf cfg ns).length = cfg.signal.num_samples + 1 := by
  rw [signalOf]
  split
  · rw [add_awgn_length, generate_length]
  · rw [generate_length]

/-- **C5 (amended).** `CascadedFilterBank.process` is a pure function of
`(signal, theta)` — in this embedding, hidden state enters only through
the RNG draws of `add_awgn` — and `compute_filter_output` is two-run
deterministic exactly on configurations with `add_noise` disabled: its
result is then independent of the ambient noise stream. -/
theorem filter_output_deterministic_without_noise (theta : ℝ) (cfg : Config)
    (ns1 ns2 : ℕ → ℝ) (h : cfg.signal.add_noise = false) :
    compute_filter_output theta cfg ns1 = compute_filter_output theta cfg ns2 := by
  unfold compute_filter_output signalOf
  rw [h]
  simp

/-- Witness for C5 (amended) at `cfgA`, `theta = 0`, two distinct noise
streams. -/
theorem filter_output_deterministic_without_noise_witness :
    cfgA.signal.add_noise = false
    ∧ compute_filter_output 0 cfgA (fun _ => 0) = compute_filter_output 0 cfgA (fun _ => 1) :=
  ⟨rfl, filter_output_deterministic_without_noise 0 cfgA (fun _ => 0) (fun _ => 1) rfl⟩

/-- With `cfgB`'s noise enabled, the generated signal is
`[1/2 + (1/2) * noise(0)]`: power `1/4`, SNR `0 dB`, noise std `1/2`. -/
lemma signalOf_cfgB (ns : ℕ → ℝ) : signalOf cfgB ns = [1/2 + 1/2 * ns 0] := by
  have h : signalOf cfgB ns = add_awgn (generate_test_signal 1 4 1) 0 ns := rfl
  rw [h, sig14_list, add_awgn]
  simp
  rw [show List.range 1 = [0] from rfl, List.map_cons, List.map_nil]
  norm_num

/-- **C5 (counterexample).** With `add_noise` enabled (`cfgB`), two calls
of `compute_filter_output` with identical `(theta, cfg)` but different
ambient RNG draws return different matrices, refuting two-run determinism
for noise-enabled configurations. -/
theorem filter_output_noise_nondeterminism :
    compute_filter_output 0 cfgB (fun _ => 0) ≠ compute_filter_output 0 cfgB (fun _ => 1) := by
  intro h
  have h0 := congrArg (fun m => ((m.getD 0 []).getD 0 0)) h
  simp only at h0
  have hl : ∀ ns : ℕ → ℝ, (compute_filter_output 0 cfgB ns).getD 0 [] = signalOf cfgB ns :=
    fun ns => bank_process_getD _ _ _ _ 0 (by norm_num [cfgB])
  rw [hl, hl, signalOf_cfgB, signalOf_cfgB] at h0
  norm_num at h0

/-- **C7 (amended).** The filter-output matrix has exactly `M + 1` rows
and `N + 1` columns (not `N`: the pipeline generates `num_samples + 1`
samples), with row 0 the input signal and row `m+1` the output of notch
stage `m+1` applied to row `m`. -/
theorem filter_output_shape (theta : ℝ) (cfg : Config) (ns : ℕ → ℝ) :
    (compute_filter_output theta cfg ns).length = cfg.filter.num_subfilters + 1
    ∧ (∀ i, i < cfg.filter.num_subfilters + 1 →
        ((compute_filter_output theta cfg ns).getD i []).length =
          cfg.signal.num_samples + 1)
    ∧ (compute_filter_output theta cfg ns).getD 0 [] = signalOf cfg ns
    ∧ (∀ m, m < cfg.filter.num_subfilters →
        (compute_filter_output theta cfg ns).getD (m + 1) [] =
          notch_filter (m + 1) cfg.filter.pole_radius theta
            ((compute_filter_output theta cfg ns).getD m [])) := by
  refine ⟨?_, ?_, ?_, ?_⟩
  · show (bank_process _ _ _ _).length = _
    rw [bank_process]
    simp
  · intro i hi
    show ((bank_process _ _ _ _).getD i []).length = _
    rw [bank_process_getD _ _ _ _ i hi, bank_row_length, signalOf_length]
  · exact bank_process_getD _ _ _ _ 0 (by omega)
  · intro m hm
    have hd : compute_filter_output theta cfg ns =
        bank_process cfg.filter.num_subfilters cfg.filter.pole_radius theta
          (signalOf cfg ns) := rfl
    rw [hd, bank_process_getD cfg.filter.num_subfilters _ _ _ (m + 1) (by omega),
      bank_process_getD cfg.filter.num_subfilters _ _ _ m (by omega)]
    rfl

/-- Witness for C7 (amended) at `cfgA`, `theta = 0`, zero noise draws. -/
theorem filter_output_shape_witness :
    (compute_filter_output 0 cfgA (fun _ => 0)).length = cfgA.filter.num_subfilters + 1
    ∧ (∀ i, i < cfgA.filter.num_subfilters + 1 →
        ((compute_filter_output 0 cfgA (fun _ => 0)).getD i []).length =
          cfgA.signal.num_samples + 1)
    ∧ (compute_filter_output 0 cfgA (fun _ => 0)).getD 0 [] = signalOf cfgA (fun _ => 0)
    ∧ (∀ m, m < cfgA.filter.num_subfilters →
        (compute_filter_output 0 cfgA (fun _ => 0)).getD (m + 1) [] =
          notch_filter (m + 1) cfgA.filter.pole_radius 0
            ((compute_filter_output 0 cfgA (fun _ => 0)).getD m [])) :=
  filter_output_shape 0 cfgA (fun _ => 0)

/-- **C7 (counterexample).** At `cfgA` (`N = 2`) the rows of the
filter-output matrix have `N + 1 = 3` entries, not `N`: the claimed
"exactly N columns" fails. -/
theorem filter_output_not_n_columns :
    ((compute_filter_output 0 cfgA (fun _ => 0)).getD 0 []).length ≠
      cfgA.signal.num_samples := by
  have h : (compute_filter_output 0 cfgA (fun _ => 0)).getD 0 [] =
      signalOf cfgA (fun _ => 0) :=
    bank_process_getD _ _ _ _ 0 (by omega)
  rw [h, signalOf_length]
  norm_num [cfgA]

/-! ## Properties of the search primitives -/

lemma foldl_div_sum (c : ℝ) (l : List ℝ) : ∀ s, l.foldl (fun a v => a + v / c) s = s + l.sum / c := by
  induction l with
  | nil => intro s; simp
  | cons x xs ih =>
      intro s
      rw [List.foldl_cons, ih, List.sum_cons, add_div, add_assoc]

/-- `running_average` is the grid-wide mean `sum / num_points`. -/
lemma running_average_eq_mean (l : List ℝ) (n : ℕ) :
    running_average l n = l.sum / n := by
  rw [running_average, foldl_div_sum, zero_add]

lemma foldl_min_exchange (xs : List ℝ) : ∀ a b, xs.foldl min (min a b) = min a (xs.foldl min b) := by
  induction xs with
  | nil => intro a b; rfl
  | cons c cs ih =>
      intro a b
      rw [List.foldl_cons, List.foldl_cons, min_assoc, ih]

lemma foldl_min_le_init (xs : List ℝ) : ∀ x, xs.foldl min x ≤ x := by
  induction xs with
  | nil => intro x; exact le_rfl
  | cons c cs ih =>
      intro x
      rw [List.foldl_cons]
      exact le_trans (ih (min x c)) (min_le_left x c)

lemma listMin_cons_cons (x y : ℝ) (rest : List ℝ) :
    listMin (x :: y :: rest) = min x (listMin (y :: rest)) := by
  show List.foldl min (min x y) rest = min x (List.foldl min y rest)
  exact foldl_min_exchange rest x y

/-- `np.min` bounds every element from below. -/
lemma listMin_le_getD (l : List ℝ) : ∀ i, i < l.length → listMin l ≤ l.getD i 0 := by
  induction l with
  | nil => intro i hi; simp at hi
  | cons x xs ih =>
      intro i hi
      match xs, i with
      | [], 0 => exact le_rfl
      | [], (j + 1) => simp at hi
      | y :: rest, 0 =>
          rw [listMin_cons_cons, List.getD_cons_zero]
          exact min_le_left _ _
      | y :: rest, (j + 1) =>
          rw [listMin_cons_cons, List.getD_cons_succ]
          exact le_trans (min_le_right _ _) (ih j (by simpa using hi))

lemma argminIdx_lt_length (l : List ℝ) (hl : l ≠ []) : argminIdx l < l.length := by
  induction l with
  | nil => exact absurd rfl hl
  | cons x xs ih =>
      match xs with
      | [] => show 0 < 1; omega
      | y :: rest =>
          show argminIdx (x :: y :: rest) < (y :: rest).length + 1
          rw [argminIdx]
          split
          · have := ih (by simp)
            omega
          · omega

/-- The element at `argminIdx` is the minimum. -/
lemma getD_argminIdx (l : List ℝ) (hl : l ≠ []) :
    l.getD (argminIdx l) 0 = listMin l := by
  induction l with
  | nil => exact absurd rfl hl
  | cons x xs ih =>
      match xs with
      | [] => rfl
      | y :: rest =>
          rw [argminIdx, listMin_cons_cons]
          split
          · rename_i hlt
            rw [List.getD_cons_succ, ih (by simp)]
            rw [ih (by simp)] at hlt
            exact (min_eq_right (le_of_lt hlt)).symm
          · rename_i hge
            rw [ih (by simp)] at hge
            rw [List.getD_cons_zero]
            exact (min_eq_left (le_of_not_lt hge)).symm

lemma getD_map_lt {α β : Type} (f : α → β) (l : List α) (k : ℕ) (hk : k < l.length)
    (d : β) (e : α) : (l.map f).getD k d = f (l.getD k e) := by
  rw [List.getD_eq_getElem?_getD, List.getElem?_map, List.getElem?_eq_getElem hk]
  rw [List.getD_eq_getElem?_getD, List.getElem?_eq_getElem hk]
  rfl

lemma linspace_length (a b : ℝ) (n : ℕ) : (linspace a b n).length = n := by
  rw [linspace]
  split <;> simp

lemma mse_curve_length (cfg : Config) (ns : ℕ → ℝ) :
    (mse_curve cfg ns).length = cfg.lms.num_theta_points := by
  rw [mse_curve, List.length_map, linspace_length]

lemma mse_first_curve_length (cfg : Config) (ns : ℕ → ℝ) :
    (mse_first_curve cfg ns).length = cfg.lms.num_theta_points := by
  rw [mse_first_curve, List.length_map, linspace_length]

/-- The head of `filter p (range n)` is the least index below `n`
satisfying `p`. -/
lemma filter_range_head (p : ℕ → Bool) :
    ∀ (n k : ℕ) (rest : List ℕ), (List.range n).filter p = k :: rest →
      k < n ∧ p k = true ∧ ∀ j, j < k → ¬ p j = true := by
  intro n
  induction n with
  | zero => intro k rest h; simp at h
  | succ n ih =>
      intro k rest h
      rw [List.range_succ, List.filter_append] at h
      cases hf : (List.range n).filter p with
      | cons c cs =>
          rw [hf, List.cons_append] at h
          obtain ⟨h1, h2, h3⟩ := ih c cs hf
          injection h with hck _
          subst hck
          exact ⟨by omega, h2, h3⟩
      | nil =>
          rw [hf, List.nil_append] at h
          have hall : ∀ j, j < n → ¬ p j = true := by
            intro j hj
            have := List.filter_eq_nil_iff.1 hf j (List.mem_range.2 hj)
            simpa using this
          by_cases hp : p n = true
          · rw [List.filter_cons, if_pos hp, List.filter_nil] at h
            injection h with hck _
            subst hck
            exact ⟨by omega, hp, hall⟩
          · rw [List.filter_cons, if_neg hp, List.filter_nil] at h
            simp at h

/-- The selection step returns the first capture-range grid point, or the
global-argmin grid point when none qualifies. -/
lemma select_spec (num_points : ℕ) (grid mse mseF : List ℝ) :
    (∃ k, k < num_points ∧ in_capture_range mse mseF num_points k
        ∧ select_initial_theta num_points grid mse mseF = grid.getD k 0
        ∧ ∀ j, j < k → ¬ in_capture_range mse mseF num_points j)
    ∨ ((∀ k, k < num_points → ¬ in_capture_range mse mseF num_points k)
        ∧ select_initial_theta num_points grid mse mseF = grid.getD (argminIdx mse) 0) := by
  unfold select_initial_theta
  cases hf : (List.range num_points).filter
      (fun k => decide (in_capture_range mse mseF num_points k)) with
  | nil =>
      right
      constructor
      · intro k hk hcap
        have := List.filter_eq_nil_iff.1 hf k (List.mem_range.2 hk)
        simp at this
        exact this hcap
      · simp
  | cons k rest =>
      left
      obtain ⟨h1, h2, h3⟩ := filter_range_head _ num_points k rest hf
      refine ⟨k, h1, by simpa using h2, ?_, fun j hj => by simpa using h3 j hj⟩
      simp

/-- **C3.** The initial-theta search evaluates `compute_mse` at every
point of the `num_theta_points` grid over `[0, pi/M]`, compares against
the grid-wide mean of `mse_total` and the global minimum with thresholds
`1e-4` and `0.2`, and returns the first (smallest-theta) grid point
passing all three predicates — or the theta of the (first) global minimum
of `mse_total` when none does. -/
theorem initial_search_contract (cfg : Config) (ns : ℕ → ℝ)
    (hn : 1 ≤ cfg.lms.num_theta_points) :
    (∀ k, k < cfg.lms.num_theta_points →
        (mse_curve cfg ns).getD k 0 =
          (bank_compute_mse cfg.filter.num_subfilters cfg.filter.pole_radius (signalOf cfg ns)
            ((linspace 0 (Real.pi / cfg.filter.num_subfilters)
              cfg.lms.num_theta_points).getD k 0)).1
        ∧ (mse_first_curve cfg ns).getD k 0 =
          (bank_compute_mse cfg.filter.num_subfilters cfg.filter.pole_radius (signalOf cfg ns)
            ((linspace 0 (Real.pi / cfg.filter.num_subfilters)
              cfg.lms.num_theta_points).getD k 0)).2)
    ∧ (∀ k, in_capture_range (mse_curve cfg ns) (mse_first_curve cfg ns)
          cfg.lms.num_theta_points k ↔
        ((mse_first_curve cfg ns).getD k 0
            - (mse_curve cfg ns).sum / cfg.lms.num_theta_points < 0.0001
          ∧ (mse_curve cfg ns).getD k 0
            - (mse_curve cfg ns).sum / cfg.lms.num_theta_points < 0.0001
          ∧ (mse_curve cfg ns).getD k 0 - listMin (mse_curve cfg ns) < 0.2))
    ∧ (∀ i, i < cfg.lms.num_theta_points →
        listMin (mse_curve cfg ns) ≤ (mse_curve cfg ns).getD i 0)
    ∧ ((∃ k, k < cfg.lms.num_theta_points
          ∧ in_capture_range (mse_curve cfg ns) (mse_first_curve cfg ns)
              cfg.lms.num_theta_points k
          ∧ (find_initial_theta cfg ns).1 =
              (linspace 0 (Real.pi / cfg.filter.num_subfilters)
                cfg.lms.num_theta_points).getD k 0
          ∧ ∀ j, j < k → ¬ in_capture_range (mse_curve cfg ns) (mse_first_curve cfg ns)
              cfg.lms.num_theta_points j)
      ∨ ((∀ k, k < cfg.lms.num_theta_points →
            ¬ in_capture_range (mse_curve cfg ns) (mse_first_curve cfg ns)
                cfg.lms.num_theta_points k)
          ∧ (find_initial_theta cfg ns).1 =
              (linspace 0 (Real.pi / cfg.filter.num_subfilters)
                cfg.lms.num_theta_points).getD (argminIdx (mse_curve cfg ns)) 0
          ∧ argminIdx (mse_curve cfg ns) < cfg.lms.num_theta_points
          ∧ (mse_curve cfg ns).getD (argminIdx (mse_curve cfg ns)) 0 =
              listMin (mse_curve cfg ns))) := by
  have hlen : (mse_curve cfg ns).length = cfg.lms.num_theta_points := mse_curve_length cfg ns
  have hne : mse_curve cfg ns ≠ [] := by
    intro h
    rw [h] at hlen
    simp at hlen
    omega
  refine ⟨?_, ?_, ?_, ?_⟩
  · intro k hk
    constructor
    · rw [mse_curve, getD_map_lt _ _ k (by rw [linspace_length]; exact hk) 0 0]
    · rw [mse_first_curve, getD_map_lt _ _ k (by rw [linspace_length]; exact hk) 0 0]
  · intro k
    unfold in_capture_range
    rw [running_average_eq_mean]
  · intro i hi
    exact listMin_le_getD _ i (by omega)
  · have hsel := select_spec cfg.lms.num_theta_points
      (linspace 0 (Real.pi / cfg.filter.num_subfilters) cfg.lms.num_theta_points)
      (mse_curve cfg ns) (mse_first_curve cfg ns)
    rcases hsel with ⟨k, h1, h2, h3, h4⟩ | ⟨h1, h2⟩
    · exact Or.inl ⟨k, h1, h2, h3, h4⟩
    · refine Or.inr ⟨h1, h2, ?_, getD_argminIdx _ hne⟩
      have := argminIdx_lt_length _ hne
      omega

/-- Witness for C3 at `cfgC` (one grid point), zero noise draws. -/
theorem initial_search_contract_witness :
    1 ≤ cfgC.lms.num_theta_points
    ∧ ((∀ k, k < cfgC.lms.num_theta_points →
        (mse_curve cfgC (fun _ => 0)).getD k 0 =
          (bank_compute_mse cfgC.filter.num_subfilters cfgC.filter.pole_radius
            (signalOf cfgC (fun _ => 0))
            ((linspace 0 (Real.pi / cfgC.filter.num_subfilters)
              cfgC.lms.num_theta_points).getD k 0)).1
        ∧ (mse_first_curve cfgC (fun _ => 0)).getD k 0 =
          (bank_compute_mse cfgC.filter.num_subfilters cfgC.filter.pole_radius
            (signalOf cfgC (fun _ => 0))
            ((linspace 0 (Real.pi / cfgC.filter.num_subfilters)
              cfgC.lms.num_theta_points).getD k 0)).2)
    ∧ (∀ k, in_capture_range (mse_curve cfgC (fun _ => 0)) (mse_first_curve cfgC (fun _ => 0))
          cfgC.lms.num_theta_points k ↔
        ((mse_first_curve cfgC (fun _ => 0)).getD k 0
            - (mse_curve cfgC (fun _ => 0)).sum / cfgC.lms.num_theta_points < 0.0001
          ∧ (mse_curve cfgC (fun _ => 0)).getD k 0
            - (mse_curve cfgC (fun _ => 0)).sum / cfgC.lms.num_theta_points < 0.0001
          ∧ (mse_curve cfgC (fun _ => 0)).getD k 0
            - listMin (mse_curve cfgC (fun _ => 0)) < 0.2))
    ∧ (∀ i, i < cfgC.lms.num_theta_points →
        listMin (mse_curve cfgC (fun _ => 0)) ≤ (mse_curve cfgC (fun _ => 0)).getD i 0)
    ∧ ((∃ k, k < cfgC.lms.num_theta_points
          ∧ in_capture_range (mse_curve cfgC (fun _ => 0)) (mse_first_curve cfgC (fun _ => 0))
              cfgC.lms.num_theta_points k
          ∧ (find_initial_theta cfgC (fun _ => 0)).1 =
              (linspace 0 (Real.pi / cfgC.filter.num_subfilters)
                cfgC.lms.num_theta_points).getD k 0
          ∧ ∀ j, j < k → ¬ in_capture_range (mse_curve cfgC (fun _ => 0))
              (mse_first_curve cfgC (fun _ => 0)) cfgC.lms.num_theta_points j)
      ∨ ((∀ k, k < cfgC.lms.num_theta_points →
            ¬ in_capture_range (mse_curve cfgC (fun _ => 0))
                (mse_first_curve cfgC (fun _ => 0)) cfgC.lms.num_theta_points k)
          ∧ (find_initial_theta cfgC (fun _ => 0)).1 =
              (linspace 0 (Real.pi / cfgC.filter.num_subfilters)
                cfgC.lms.num_theta_points).getD (argminIdx (mse_curve cfgC (fun _ => 0))) 0
          ∧ argminIdx (mse_curve cfgC (fun _ => 0)) < cfgC.lms.num_theta_points
          ∧ (mse_curve cfgC (fun _ => 0)).getD (argminIdx (mse_curve cfgC (fun _ => 0))) 0 =
              listMin (mse_curve cfgC (fun _ => 0))))) :=
  ⟨by norm_num [cfgC], initial_search_contract cfgC (fun _ => 0) (by norm_num [cfgC])⟩

/-! ## Claim C6: range of theta estimates -/

/-- With `theta = 0` every sine term of the sensitivity recursion
vanishes, so a row with zero predecessor is zero. -/
lemma betaRow_theta_zero (hm : ℕ) (r : ℝ) (prev yPrev yCur : ℕ → ℝ)
    (hprev : ∀ n, prev n = 0) : ∀ n, betaRow hm 0 r prev yPrev yCur n = 0 := by
  have hsin : Real.sin ((hm : ℝ) * 0) = 0 := by rw [mul_zero, Real.sin_zero]
  have key : ∀ n, betaRow hm 0 r prev yPrev yCur n = 0
      ∧ betaRow hm 0 r prev yPrev yCur (n + 1) = 0 := by
    intro n
    induction n with
    | zero =>
        constructor
        · rw [betaRow, hprev]
        · rw [betaRow, hsin]
          simp [betaRow, hprev]
    | succ n ih =>
        refine ⟨ih.2, ?_⟩
        rw [show n + 1 + 1 = n + 2 from rfl, betaRow, hsin]
        simp [hprev, ih.1, ih.2]
  exact fun n => (key n).1

lemma betaFn_theta_zero (r : ℝ) (y : ℕ → ℕ → ℝ) : ∀ m n, betaFn 0 r y m n = 0 := by
  intro m
  induction m with
  | zero => intro n; rfl
  | succ m ih => exact betaRow_theta_zero (m + 1) r _ _ _ ih

/-- At `theta = 0` the gradient is identically zero. -/
lemma gradient_zero_at_theta_zero (y : List (List ℝ)) (cfg : Config) :
    compute_gradient 0 y cfg = List.replicate cfg.signal.num_samples 0 := by
  rw [compute_gradient_eq]
  calc (List.range cfg.signal.num_samples).map
        (betaFn 0 cfg.filter.pole_radius (toFun y) (cfg.filter.num_subfilters - 1))
      = (List.range cfg.signal.num_samples).map (fun _ => (0 : ℝ)) :=
        List.map_congr_left (fun n _ => betaFn_theta_zero _ _ _ n)
    _ = List.replicate cfg.signal.num_samples 0 := by rw [List.map_const']; simp

/-- `theta = 0` is a fixed point of the LMS loop. -/
lemma lms_fixed_at_zero (cfg : Config) (noise : ℕ → ℕ → ℝ) :
    run_lms 0 cfg noise = (0, List.replicate cfg.signal.num_samples 0) := by
  have htheta : ∀ n, thetaAt 0 cfg noise n = 0 := by
    intro n
    induction n with
    | zero => rfl
    | succ n ih =>
        rw [thetaAt]
        simp only [ih, gradient_zero_at_theta_zero, getD_replicate_zero, mul_zero, sub_zero]
  rw [run_lms_eq, htheta]
  congr 1
  calc (List.range cfg.signal.num_samples).map (fun n => thetaAt 0 cfg noise (n + 1))
      = (List.range cfg.signal.num_samples).map (fun _ => (0 : ℝ)) :=
        List.map_congr_left (fun n _ => htheta (n + 1))
    _ = List.replicate cfg.signal.num_samples 0 := by rw [List.map_const']; simp

/-- Every entry of `np.linspace(0, b, n)` (and the out-of-range default)
lies in `[0, b]`. -/
lemma linspace_getD_mem (b : ℝ) (hb : 0 ≤ b) (n k : ℕ) :
    (linspace 0 b n).getD k 0 ∈ Set.Icc (0 : ℝ) b := by
  rw [linspace]
  split
  · rcases lt_or_ge k n with hk | hk
    · rw [getD_map_range _ _ _ _ hk]
      exact ⟨le_rfl, hb⟩
    · rw [List.getD_eq_getElem?_getD, List.getElem?_eq_none (by simpa using hk)]
      exact ⟨le_rfl, hb⟩
  · rename_i hn
    rcases lt_or_ge k n with hk | hk
    · rw [getD_map_range _ _ _ _ hk]
      have hc : (0 : ℝ) < ((n - 1 : ℕ) : ℝ) := by
        have h1 : 1 ≤ n - 1 := by omega
        exact_mod_cast Nat.lt_of_lt_of_le Nat.zero_lt_one h1
      have hkc : ((k : ℝ)) ≤ ((n - 1 : ℕ) : ℝ) := by
        exact_mod_cast by omega
      constructor
      · have : (0 : ℝ) ≤ (k : ℝ) * (b - 0) / ((n - 1 : ℕ) : ℝ) :=
          div_nonneg (mul_nonneg (Nat.cast_nonneg k) (by linarith)) hc.le
        linarith
      · rw [show (0 : ℝ) + (k : ℝ) * (b - 0) / ((n - 1 : ℕ) : ℝ)
            = (k : ℝ) * b / ((n - 1 : ℕ) : ℝ) by ring]
        rw [div_le_iff₀ hc]
        calc (k : ℝ) * b ≤ ((n - 1 : ℕ) : ℝ) * b :=
              mul_le_mul_of_nonneg_right hkc hb
          _ = b * ((n - 1 : ℕ) : ℝ) := by ring
    · rw [List.getD_eq_getElem?_getD, List.getElem?_eq_none (by simpa using hk)]
      exact ⟨le_rfl, hb⟩

/-- **C6 (amended).** The initial estimate always lies in the closed
interval `[0, pi/M]` (it is one of the grid points), and the LMS loop
enforces no interval constraint on its iterates: in particular `theta = 0`
— the boundary value, outside the claimed open interval — is a fixed
point: started there, the final theta and every history entry stay `0`. -/
theorem theta_estimate_range (cfg : Config) (ns : ℕ → ℝ) (noise : ℕ → ℕ → ℝ) :
    (find_initial_theta cfg ns).1 ∈
      Set.Icc (0 : ℝ) (Real.pi / (cfg.filter.num_subfilters : ℝ))
    ∧ run_lms 0 cfg noise = (0, List.replicate cfg.signal.num_samples 0) := by
  constructor
  · have hb : (0 : ℝ) ≤ Real.pi / (cfg.filter.num_subfilters : ℝ) :=
      div_nonneg Real.pi_pos.le (Nat.cast_nonneg _)
    rcases select_spec cfg.lms.num_theta_points
        (linspace 0 (Real.pi / (cfg.filter.num_subfilters : ℝ)) cfg.lms.num_theta_points)
        (mse_curve cfg ns) (mse_first_curve cfg ns) with ⟨k, _, _, h3, _⟩ | ⟨_, h3⟩
    · show select_initial_theta cfg.lms.num_theta_points
        (linspace 0 (Real.pi / (cfg.filter.num_subfilters : ℝ)) cfg.lms.num_theta_points)
        (mse_curve cfg ns) (mse_first_curve cfg ns) ∈ _
      rw [h3]
      exact linspace_getD_mem _ hb _ _
    · show select_initial_theta cfg.lms.num_theta_points
        (linspace 0 (Real.pi / (cfg.filter.num_subfilters : ℝ)) cfg.lms.num_theta_points)
        (mse_curve cfg ns) (mse_first_curve cfg ns) ∈ _
      rw [h3]
      exact linspace_getD_mem _ hb _ _
  · exact lms_fixed_at_zero cfg noise

/-- **C6 (counterexample).** At `cfgC` (a one-point theta grid) the search
returns `theta = 0` no matter what the MSE curves are, and the LMS run
started there keeps every history entry at `0`; but `0` is not in the open
interval `(0, pi/M)`, refuting the claim that every produced estimate lies
in that open interval. -/
theorem theta_estimate_hits_boundary :
    (find_initial_theta cfgC (fun _ => 0)).1 = 0
    ∧ run_lms 0 cfgC (fun _ _ => 0) = (0, List.replicate cfgC.signal.num_samples 0)
    ∧ (0 : ℝ) ∉ Set.Ioo (0 : ℝ) (Real.pi / (cfgC.filter.num_subfilters : ℝ)) := by
  refine ⟨?_, lms_fixed_at_zero cfgC (fun _ _ => 0), ?_⟩
  · have hgrid : ∀ k, (linspace 0 (Real.pi / (cfgC.filter.num_subfilters : ℝ))
        cfgC.lms.num_theta_points).getD k 0 = 0 := by
      intro k
      have h1 : linspace 0 (Real.pi / (cfgC.filter.num_subfilters : ℝ))
          cfgC.lms.num_theta_points =
          [0] := by
        show linspace 0 (Real.pi / (cfgC.filter.num_subfilters : ℝ)) 1 = [0]
        rw [linspace, if_pos (by norm_num), show List.range 1 = [0] from rfl]
        rfl
      rw [h1]
      cases k with
      | zero => rfl
      | succ j => cases j <;> rfl
    rcases select_spec cfgC.lms.num_theta_points
        (linspace 0 (Real.pi / (cfgC.filter.num_subfilters : ℝ)) cfgC.lms.num_theta_points)
        (mse_curve cfgC (fun _ => 0)) (mse_first_curve cfgC (fun _ => 0)) with
      ⟨k, _, _, h3, _⟩ | ⟨_, h3⟩
    · show select_initial_theta cfgC.lms.num_theta_points
        (linspace 0 (Real.pi / (cfgC.filter.num_subfilters : ℝ)) cfgC.lms.num_theta_points)
        (mse_curve cfgC (fun _ => 0)) (mse_first_curve cfgC (fun _ => 0)) = 0
      rw [h3, hgrid]
    · show select_initial_theta cfgC.lms.num_theta_points
        (linspace 0 (Real.pi / (cfgC.filter.num_subfilters : ℝ)) cfgC.lms.num_theta_points)
        (mse_curve cfgC (fun _ => 0)) (mse_first_curve cfgC (fun _ => 0)) = 0
      rw [h3, hgrid]
  · intro h
    exact lt_irrefl 0 h.1

/-! ## Claim C8: fallback signalling -/

/-- **C8 (amended).** When no grid point passes the three capture
predicates, the search returns the global-argmin theta — but nothing
else: the selection yields only that scalar (the returned tuple carries
just the theta, the two MSE curves and the grid, with no used-fallback
flag; the condition is only signalled by a `warnings.warn` side channel). -/
theorem fallback_returns_argmin (num_points : ℕ) (grid mse mseF : List ℝ)
    (h : ∀ k, k < num_points → ¬ in_capture_range mse mseF num_points k) :
    select_initial_theta num_points grid mse mseF = grid.getD (argminIdx mse) 0 := by
  rcases select_spec num_points grid mse mseF with ⟨k, h1, h2, _, _⟩ | ⟨_, h2⟩
  · exact absurd h2 (h k h1)
  · exact h2

/-- Witness for C8 (amended): one grid point, MSE curves failing every
capture predicate. -/
theorem fallback_returns_argmin_witness :
    (∀ k, k < 1 → ¬ in_capture_range [1] [10] 1 k)
    ∧ select_initial_theta 1 [0] [1] [10] = ([0] : List ℝ).getD (argminIdx [1]) 0 := by
  have h : ∀ k, k < 1 → ¬ in_capture_range [1] [10] 1 k := by
    intro k hk
    interval_cases k
    unfold in_capture_range
    intro hcap
    have h1 := hcap.1
    rw [running_average_eq_mean] at h1
    norm_num at h1
  exact ⟨h, fallback_returns_argmin 1 [0] [1] [10] h⟩

/-- **C8 (counterexample).** A capture-found run and a fallback run can
return the very same selected theta: with grid `[0, 1]`, the curves
`mse = mse_first = [1, 1]` put point 0 in the capture range while
`mse = [1, 2]`, `mse_first = [10, 10]` satisfy no predicate, yet both
selections are `0`.  The selection result carries no flag, so the caller
cannot tell from the returned result that the fallback was used. -/
theorem fallback_not_distinguishable :
    (∃ k, k < 2 ∧ in_capture_range [1, 1] [1, 1] 2 k)
    ∧ (∀ k, k < 2 → ¬ in_capture_range [1, 2] [10, 10] 2 k)
    ∧ select_initial_theta 2 [0, 1] [1, 1] [1, 1] =
        select_initial_theta 2 [0, 1] [1, 2] [10, 10] := by
  have hcap0 : in_capture_range [1, 1] [1, 1] 2 0 := by
    unfold in_capture_range
    rw [running_average_eq_mean]
    refine ⟨?_, ?_, ?_⟩ <;> · show _ < _; norm_num [listMin]
  have hnone : ∀ k, k < 2 → ¬ in_capture_range [1, 2] [10, 10] 2 k := by
    intro k hk hcapk
    have h1 := hcapk.1
    rw [running_average_eq_mean] at h1
    interval_cases k <;> · norm_num at h1
  refine ⟨⟨0, by norm_num, hcap0⟩, hnone, ?_⟩
  have hleft : select_initial_theta 2 [0, 1] [1, 1] [1, 1] = 0 := by
    rcases select_spec 2 [0, 1] [1, 1] [1, 1] with ⟨k, h1, _, h3, h4⟩ | ⟨hall, _⟩
    · rw [h3]
      have hk0 : k = 0 := by
        by_contra hne
        exact h4 0 (by omega) hcap0
      rw [hk0]
      rfl
    · exact absurd hcap0 (hall 0 (by norm_num))
  have hright : select_initial_theta 2 [0, 1] [1, 2] [10, 10] = 0 := by
    rcases select_spec 2 [0, 1] [1, 2] [10, 10] with ⟨k, h1, h2, _, _⟩ | ⟨_, h3⟩
    · exact absurd h2 (hnone k h1)
    · rw [h3]
      have hmin : argminIdx ([1, 2] : List ℝ) = 0 := by
        rw [argminIdx]
        rw [if_neg]
        show ¬(([2] : List ℝ).getD (argminIdx [2]) 0 < 1)
        norm_num [argminIdx]
      rw [hmin]
      rfl
  rw [hleft, hright]

/-! ## Claim C9: frequency-response normalization and stage count -/

/-- `fs = 1`, `M = 1`, `r = 1/2`, one theta grid point (so a 3-point
frequency grid `[-pi, 0, pi]` with reference index 1). -/
def cfgD : Config :=
  { signal := { fundamental_freq := 1, sampling_freq := 1, num_samples := 0,
                add_noise := false, snr_db := 18 },
    filter := { num_subfilters := 1, pole_radius := 1/2 },
    lms := { step_size := 1/10000, num_theta_points := 1 } }

lemma exp_nIpi_neg : Complex.exp (-(Complex.I * ((-Real.pi : ℝ) : ℂ))) = -1 := by
  rw [show (-(Complex.I * ((-Real.pi : ℝ) : ℂ))) = (Real.pi : ℂ) * Complex.I by
    push_cast; ring]
  exact Complex.exp_pi_mul_I

lemma exp_n2Ipi_neg : Complex.exp (-(2 * Complex.I * ((-Real.pi : ℝ) : ℂ))) = 1 := by
  rw [show (-(2 * Complex.I * ((-Real.pi : ℝ) : ℂ))) = 2 * (Real.pi : ℂ) * Complex.I by
    push_cast; ring]
  exact Complex.exp_two_pi_mul_I

lemma exp_nI_zero : Complex.exp (-(Complex.I * ((0 : ℝ) : ℂ))) = 1 := by
  norm_num

lemma exp_n2I_zero : Complex.exp (-(2 * Complex.I * ((0 : ℝ) : ℂ))) = 1 := by
  norm_num

lemma exp_nIpi_pos : Complex.exp (-(Complex.I * ((Real.pi : ℝ) : ℂ))) = -1 := by
  rw [show (-(Complex.I * ((Real.pi : ℝ) : ℂ))) = -((Real.pi : ℂ) * Complex.I) by ring,
    Complex.exp_neg, Complex.exp_pi_mul_I]
  norm_num

lemma exp_n2Ipi_pos : Complex.exp (-(2 * Complex.I * ((Real.pi : ℝ) : ℂ))) = 1 := by
  rw [show (-(2 * Complex.I * ((Real.pi : ℝ) : ℂ))) = -(2 * (Real.pi : ℂ) * Complex.I) by ring,
    Complex.exp_neg, Complex.exp_two_pi_mul_I]
  norm_num

/-- Harmonic-1 stage response at `theta = pi/2` over `[-pi, 0, pi]`. -/
lemma stageD1 : stage_response 1 (1/2) (Real.pi/2) [-Real.pi, 0, Real.pi] =
    [((8/5 : ℝ) : ℂ), ((8/5 : ℝ) : ℂ), ((8/5 : ℝ) : ℂ)] := by
  unfold stage_response freqzH
  rw [List.map_cons, List.map_cons, List.map_cons, List.map_nil]
  have hcos : Real.cos (((1 : ℕ) : ℝ) * (Real.pi/2)) = 0 := by
    push_cast
    rw [one_mul, Real.cos_pi_div_two]
  rw [hcos, exp_nIpi_neg, exp_n2Ipi_neg, exp_nI_zero, exp_n2I_zero, exp_nIpi_pos, exp_n2Ipi_pos]
  push_cast
  norm_num

/-- Harmonic-2 stage response at `theta = pi/2` over `[-pi, 0, pi]`:
its numerator vanishes at `omega = +-pi`. -/
lemma stageD2 : stage_response 2 (1/2) (Real.pi/2) [-Real.pi, 0, Real.pi] =
    [0, ((16/9 : ℝ) : ℂ), 0] := by
  unfold stage_response freqzH
  rw [List.map_cons, List.map_cons, List.map_cons, List.map_nil]
  have hcos : Real.cos (((2 : ℕ) : ℝ) * (Real.pi/2)) = -1 := by
    push_cast
    rw [show (2 : ℝ) * (Real.pi/2) = Real.pi by ring, Real.cos_pi]
  rw [hcos, exp_nIpi_neg, exp_n2Ipi_neg, exp_nI_zero, exp_n2I_zero, exp_nIpi_pos, exp_n2Ipi_pos]
  push_cast
  norm_num

lemma normD1 : normalize_at 1 [((8/5 : ℝ) : ℂ), ((8/5 : ℝ) : ℂ), ((8/5 : ℝ) : ℂ)] =
    [1, 1, 1] := by
  unfold normalize_at
  rw [show (([((8/5 : ℝ) : ℂ), ((8/5 : ℝ) : ℂ), ((8/5 : ℝ) : ℂ)]).getD 1 0) = ((8/5 : ℝ) : ℂ)
    from rfl]
  rw [Complex.abs_ofReal, abs_of_pos (by norm_num : (0:ℝ) < 8/5)]
  rw [List.map_cons, List.map_cons, List.map_cons, List.map_nil]
  push_cast
  norm_num

lemma normD2 : normalize_at 1 [0, ((16/9 : ℝ) : ℂ), 0] = [0, 1, 0] := by
  unfold normalize_at
  rw [show (([(0 : ℂ), ((16/9 : ℝ) : ℂ), 0]).getD 1 0) = ((16/9 : ℝ) : ℂ) from rfl]
  rw [Complex.abs_ofReal, abs_of_pos (by norm_num : (0:ℝ) < 16/9)]
  rw [List.map_cons, List.map_cons, List.map_cons, List.map_nil]
  push_cast
  norm_num

lemma normD3 : normalize_at 1 [0, 1, 0] = [0, 1, 0] := by
  unfold normalize_at
  rw [show (([(0 : ℂ), 1, 0]).getD 1 0) = 1 from rfl]
  rw [List.map_cons, List.map_cons, List.map_cons, List.map_nil]
  norm_num

lemma normD4 : normalize_at 1 [1, 1, 1] = ([1, 1, 1] : List ℂ) := by
  unfold normalize_at
  rw [show (([(1 : ℂ), 1, 1]).getD 1 0) = 1 from rfl]
  rw [List.map_cons, List.map_cons, List.map_cons, List.map_nil]
  norm_num

lemma omegaD : linspace (-Real.pi) Real.pi 3 = [-Real.pi, 0, Real.pi] := by
  rw [linspace, if_neg (by norm_num), show List.range 3 = [0, 1, 2] from rfl,
    List.map_cons, List.map_cons, List.map_cons, List.map_nil]
  have e0 : -Real.pi + ((0 : ℕ) : ℝ) * (Real.pi - -Real.pi) / (((3 - 1 : ℕ) : ℝ)) = -Real.pi := by
    push_cast; ring
  have e1 : -Real.pi + ((1 : ℕ) : ℝ) * (Real.pi - -Real.pi) / (((3 - 1 : ℕ) : ℝ)) = 0 := by
    push_cast; ring
  have e2 : -Real.pi + ((2 : ℕ) : ℝ) * (Real.pi - -Real.pi) / (((3 - 1 : ℕ) : ℝ)) = Real.pi := by
    push_cast; ring
  rw [e0, e1, e2]

/-- What `compute_frequency_response` returns at `cfgD`, `theta = pi/2`:
the product includes the harmonic-2 stage (`M + 1 = 2` stages), whose zero
at `omega = +-pi` drives `H_total` there to `0`. -/
lemma coreD : (compute_frequency_response (Real.pi/2) cfgD).1 = [0, 1, 0] := by
  have h : (compute_frequency_response (Real.pi/2) cfgD).1 =
      normalize_at 1
        (((List.range 2).map
            (fun stage =>
              normalize_at 1
                (stage_response (stage + 1) (1/2) (Real.pi/2)
                  (linspace (-Real.pi) Real.pi 3)))).foldl
          (fun acc H => List.zipWith (fun x y => x * y) acc H)
          (List.replicate 3 1)) := rfl
  rw [h, omegaD, show List.range 2 = [0, 1] from rfl, List.map_cons, List.map_cons,
    List.map_nil]
  rw [show (0 + 1 : ℕ) = 1 from rfl, show (1 + 1 : ℕ) = 2 from rfl]
  rw [stageD1, stageD2, normD1, normD2]
  rw [show (([([1, 1, 1] : List ℂ), [0, 1, 0]]).foldl
      (fun acc H => List.zipWith (fun x y => x * y) acc H) (List.replicate 3 1)) =
      List.zipWith (fun x y => x * y)
        (List.zipWith (fun x y => x * y) (List.replicate 3 1) [1, 1, 1]) [0, 1, 0] from rfl]
  rw [show (List.replicate 3 (1 : ℂ)) = [1, 1, 1] from rfl]
  rw [show (List.zipWith (fun x y => x * y) ([1, 1, 1] : List ℂ) [1, 1, 1]) = [1 * 1, 1 * 1, 1 * 1]
    from rfl]
  rw [show ([1 * 1, 1 * 1, 1 * 1] : List ℂ) = [1, 1, 1] by norm_num]
  rw [show (List.zipWith (fun x y => x * y) ([1, 1, 1] : List ℂ) [0, 1, 0]) = [1 * 0, 1 * 1, 1 * 0]
    from rfl]
  rw [show ([1 * 0, 1 * 1, 1 * 0] : List ℂ) = [0, 1, 0] by norm_num]
  exact normD3

/-- What the spec's wording (exactly `M` stages, harmonics `1..M`) yields
at the same input: all ones. -/
lemma claimD : claim_frequency_response_total (Real.pi/2) cfgD = [1, 1, 1] := by
  have h : claim_frequency_response_total (Real.pi/2) cfgD =
      normalize_at 1
        (((List.range 1).map
            (fun stage =>
              normalize_at 1
                (stage_response (stage + 1) (1/2) (Real.pi/2)
                  (linspace (-Real.pi) Real.pi 3)))).foldl
          (fun acc H => List.zipWith (fun x y => x * y) acc H)
          (List.replicate 3 1)) := rfl
  rw [h, omegaD, show List.range 1 = [0] from rfl, List.map_cons, List.map_nil]
  rw [show (0 + 1 : ℕ) = 1 from rfl]
  rw [stageD1, normD1]
  rw [show (([([1, 1, 1] : List ℂ)]).foldl
      (fun acc H => List.zipWith (fun x y => x * y) acc H) (List.replicate 3 1)) =
      List.zipWith (fun x y => x * y) (List.replicate 3 1) [1, 1, 1] from rfl]
  rw [show (List.replicate 3 (1 : ℂ)) = [1, 1, 1] from rfl]
  rw [show (List.zipWith (fun x y => x * y) ([1, 1, 1] : List ℂ) [1, 1, 1]) = [1 * 1, 1 * 1, 1 * 1]
    from rfl]
  rw [show ([1 * 1, 1 * 1, 1 * 1] : List ℂ) = [1, 1, 1] by norm_num]
  exact normD4

/-- **C9 (code bug).** `compute_frequency_response` multiplies `M + 1`
stage responses with harmonic indices `1..M+1` (its loop runs over
`total_stages = num_subfilters + 1`), contradicting its own docstring
`H_total = prod_(m=1)^M H_m` and the spec: at `cfgD` (`M = 1`),
`theta = pi/2`, the returned `H_total` is `[0, 1, 0]` while the product of
exactly the `M` normalized stage responses is `[1, 1, 1]`. -/
theorem frequency_response_extra_stage :
    (compute_frequency_response (Real.pi/2) cfgD).1 ≠
      claim_frequency_response_total (Real.pi/2) cfgD := by
  rw [coreD, claimD]
  intro h
  have h0 := congrArg (fun l => l.getD 0 0) h
  simp only [List.getD_cons_zero] at h0
  norm_num at h0

end FreqEst
